import Mathlib

/-!
Shallow embedding of the JoltPhysics object-stream serializer
(`src/Jolt/ObjectStream/ObjectStreamOut.cpp`) and of the hash combiner
(`src/Jolt/Core/HashCombine.h`), together with proofs of the specified
properties.

The serializer is modelled as a state machine.  The external collaborators
(RTTI metadata, attributes, the pluggable format writer) are modelled from
the specification's interface contracts: a `World` supplies the type
registry and the object heap, and each low-level call on the format writer
appends one abstract record to the output log.  The underlying `ostream`
fault model is a sticky fail flag: an optional budget of successful
low-level writes, after which the fail bit is set and all further writes
are dropped, as for a failed C++ `ostream`.
-/

set_option maxRecDepth 4000

namespace JoltSpec

/-! ### Model of `src/Jolt/Core/HashCombine.h` -/

/-- The magic constant `0x9e3779b9` used by `hash_combine`. -/
def hashMagic : Nat := 0x9e3779b9

/-- `std::size_t` arithmetic is modulo `2 ^ 64`. -/
def sizeTMod : Nat := 2 ^ 64

/-- One step of `hash_combine`:
`ioSeed ^= hasher(inValue) + 0x9e3779b9 + (ioSeed << 6) + (ioSeed >> 2)`,
with the right-hand side computed in `size_t` arithmetic. -/
def hashCombineStep (seed h : Nat) : Nat :=
  seed ^^^ ((h + hashMagic + seed * 2 ^ 6 + seed / 2 ^ 2) % sizeTMod)

/-- The variadic `hash_combine(ioSeed, inValue, inRest...)` recursion, with
the already-hashed field values passed as a list.  The nullary overload
(empty list) leaves the seed unchanged. -/
def hash_combine (seed : Nat) : List Nat → Nat
  | [] => seed
  | h :: rest => hash_combine (hashCombineStep seed h) rest

/-- The functor generated by `JPH_MAKE_HASH_STRUCT`:
`std::size_t ret = 0; hash_combine(ret, fields...); return ret;`. -/
def makeHashStruct (fields : List Nat) : Nat := hash_combine 0 fields

/-! ### Data model for `ObjectStreamOut`

Object identities and type descriptors.  Object identity is an index into
a finite heap (a stable handle standing for the C++ object address); a
type id is an index into a finite registry (standing for an `RTTI *`). -/

abbrev ObjId := Nat
abbrev TypeId := Nat
abbrev Identifier := Nat

/-- `ObjectStream::sNullIdentifier`. -/
def sNullIdentifier : Identifier := 0

/-- The value an attribute reads from an object: a primitive value or a
pointer (possibly null) to another object. -/
inductive FieldVal
  | prim (v : Nat)
  | ptr (p : Option ObjId)
deriving DecidableEq, Repr

def FieldVal.toPrim : FieldVal → Nat
  | .prim v => v
  | .ptr _ => 0

def FieldVal.toPtr : FieldVal → Option ObjId
  | .ptr p => p
  | .prim _ => none

/-- One registered attribute of a reflected type.
`nonSerializable` stands for an `RTTIAttribute` that does not cast to
`SerializableAttribute` (the `DynamicCast` in the source returns null and
the attribute is skipped).  A serializable attribute carries its name, the
tag its `WriteDataType` emits, and its `GetMemberPrimitiveType` result
(for pointer attributes, the pointed-to reflected type). -/
inductive Attr
  | nonSerializable
  | primAttr (nm : String) (tg : Nat) (memberType : Option TypeId)
  | ptrAttr (nm : String) (tg : Nat) (memberType : TypeId)
deriving DecidableEq, Repr

/-- Per-type metadata supplied by the external type registry: the ordered
attribute list (`GetAttributeCount` / `GetAttribute`). -/
structure TypeDesc where
  attrs : List Attr
deriving DecidableEq, Repr

/-- A heap object: its dynamic reflected type and its field values, one
per registered attribute (in attribute order). -/
structure Obj where
  type : TypeId
  fields : List FieldVal
deriving DecidableEq, Repr

/-- The external world: the type registry, the object heap, and the list
of primitive types that the `ObjectStreamOut` constructor inserts into the
class set (`JPH_DECLARE_PRIMITIVE` expansion). -/
structure World where
  types : List TypeDesc
  heap : List Obj
  prims : List TypeId
deriving Repr

def getType (w : World) (t : TypeId) : TypeDesc := w.types.getD t ⟨[]⟩
def getObj (w : World) (o : ObjId) : Obj := w.heap.getD o ⟨0, []⟩
def fieldAt (ob : Obj) (i : Nat) : FieldVal := ob.fields.getD i (.prim 0)

/-- `ObjectStreamOut::ObjectInfo`. -/
structure ObjectInfo where
  identifier : Identifier
  rtti : TypeId
deriving DecidableEq, Repr

/-- `ObjectStream::EDataType` as far as this file needs it: the structural
tags `Object` and `Declare` emitted by the serializer itself, plus a
numeric tag for whatever an attribute's own `WriteDataType` emits. -/
inductive EDataType
  | object
  | declare
  | tg (n : Nat)
deriving DecidableEq, Repr

/-- One low-level call on the format writer, recorded abstractly. -/
inductive Rec
  | hint
  | indentUp
  | indentDown
  | dataType (t : EDataType)
  | typeName (t : TypeId)
  | attrName (s : String)
  | count (n : Nat)
  | ident (i : Identifier)
  | primData (v : Nat)
deriving DecidableEq, Repr

/-- The serializer state: the output log and fault model of the underlying
stream, plus the session state of `ObjectStreamOut` (identifier map, class
set, class queue, object queue, next identifier). -/
structure OState where
  out : List Rec
  failAfter : Option Nat
  fail : Bool
  identifierMap : List (ObjId × ObjectInfo)
  classSet : List TypeId
  classQueue : List TypeId
  objectQueue : List ObjId
  nextIdentifier : Identifier
deriving DecidableEq, Repr

/-- The `ObjectStreamOut` constructor: next identifier starts at
`sNullIdentifier + 1` and all primitive types are inserted into the class
set.  `failAfter` is the stream's budget of successful writes (`none` for
a stream that never faults). -/
def initState (w : World) (failAfter : Option Nat) : OState :=
  { out := []
    failAfter := failAfter
    fail := false
    identifierMap := []
    classSet := w.prims
    classQueue := []
    objectQueue := []
    nextIdentifier := sNullIdentifier + 1 }

/-- `std::map::find` on the identifier map. -/
def lookupId : List (ObjId × ObjectInfo) → ObjId → Option ObjectInfo
  | [], _ => none
  | (k, v) :: rest, o => if k = o then some v else lookupId rest o

/-- `std::map::insert`: a no-op when the key is already present. -/
def insertNew (m : List (ObjId × ObjectInfo)) (k : ObjId) (v : ObjectInfo) :
    List (ObjId × ObjectInfo) :=
  match lookupId m k with
  | some _ => m
  | none => m ++ [(k, v)]

/-- One low-level write on the format writer / stream.  A failed stream
drops the write; when the budget is exhausted the write fails and the
sticky fail bit is set. -/
def emit (r : Rec) (s : OState) : OState :=
  if s.fail then s
  else
    match s.failAfter with
    | none => { s with out := s.out ++ [r] }
    | some 0 => { s with fail := true }
    | some (n + 1) => { s with out := s.out ++ [r], failAfter := some n }

/-- `ObjectStreamOut::QueueRTTI`. -/
def queueRTTI (t : TypeId) (s : OState) : OState :=
  if t ∈ s.classSet then s
  else { s with classSet := t :: s.classSet, classQueue := s.classQueue ++ [t] }

/-- `ObjectStreamOut::WritePointerData`. -/
def writePointerData (inRTTI : TypeId) (inPointer : Option ObjId) (s : OState) : OState :=
  match inPointer with
  | some p =>
    match lookupId s.identifierMap p with
    | some info =>
      -- object already has an identifier
      emit (.ident info.identifier) (emit .hint s)
    | none =>
      -- assign a new identifier and queue the object for serialization
      let s1 :=
        { s with
          nextIdentifier := s.nextIdentifier + 1
          identifierMap := s.identifierMap ++ [(p, ⟨s.nextIdentifier, inRTTI⟩)]
          objectQueue := s.objectQueue ++ [p] }
      emit (.ident s.nextIdentifier) (emit .hint s1)
  | none =>
    -- null pointer
    emit (.ident sNullIdentifier) (emit .hint s)

/-- The attribute loop of `ObjectStreamOut::WriteRTTI`: skip attributes
that are not serializable; queue the member primitive type if any; then
emit the attribute name and its data type. -/
def writeAttrsDecl : List Attr → OState → OState
  | [], s => s
  | a :: rest, s =>
    let s1 :=
      match a with
      | .nonSerializable => s
      | .primAttr nm tg mt =>
        let s' :=
          match mt with
          | some r => queueRTTI r s
          | none => s
        emit (.dataType (.tg tg)) (emit (.attrName nm) (emit .hint s'))
      | .ptrAttr nm tg mt =>
        emit (.dataType (.tg tg)) (emit (.attrName nm) (emit .hint (queueRTTI mt s)))
    writeAttrsDecl rest s1

/-- `ObjectStreamOut::WriteRTTI`. -/
def writeRTTI (w : World) (t : TypeId) (s : OState) : OState :=
  let d := getType w t
  let s1 := emit .hint (emit .hint s)
  let s2 := emit (.count d.attrs.length) (emit (.typeName t) (emit (.dataType .declare) s1))
  emit .indentDown (writeAttrsDecl d.attrs (emit .indentUp s2))

/-- The attribute loop of `ObjectStreamOut::WriteClassData`: skip
non-serializable attributes; a primitive attribute's `WriteData` emits a
boundary hint and the primitive value; a pointer attribute's `WriteData`
calls `WritePointerData` on the member type and the field's pointer. -/
def writeAttrsData (w : World) (o : ObjId) : List Attr → Nat → OState → OState
  | [], _, s => s
  | a :: rest, i, s =>
    let s1 :=
      match a with
      | .nonSerializable => s
      | .primAttr _ _ _ => emit (.primData (fieldAt (getObj w o) i).toPrim) (emit .hint s)
      | .ptrAttr _ _ mt => writePointerData mt (fieldAt (getObj w o) i).toPtr s
    writeAttrsData w o rest (i + 1) s1

/-- `ObjectStreamOut::WriteClassData`. -/
def writeClassData (w : World) (t : TypeId) (o : ObjId) (s : OState) : OState :=
  emit .indentDown (writeAttrsData w o (getType w t).attrs 0 (emit .indentUp s))

/-- The class-queue drain loop of `ObjectStreamOut::WriteObject`:
`while (!mClassQueue.empty() && !mStream.fail()) { WriteRTTI(front); pop; }`.
The loop is fuel-indexed; fuel sufficiency is proved separately. -/
def drainClassQueue (w : World) : Nat → OState → OState
  | 0, s => s
  | fuel + 1, s =>
    match s.classQueue with
    | [] => s
    | t :: _ =>
      if s.fail then s
      else
        let s1 := writeRTTI w t s
        drainClassQueue w fuel { s1 with classQueue := s1.classQueue.drop 1 }

/-- `ObjectStreamOut::WriteObject`.  A failed map lookup is an assertion
failure in the source (a programming error); it is modelled as a no-op and
never reached from `write`. -/
def writeObject (w : World) (cfuel : Nat) (o : ObjId) (s : OState) : OState :=
  match lookupId s.identifierMap o with
  | none => s
  | some info =>
    let s1 := queueRTTI info.rtti s
    let s2 := drainClassQueue w cfuel s1
    let s3 := emit .hint (emit .hint s2)
    let s4 := emit (.ident info.identifier)
      (emit (.typeName info.rtti) (emit (.dataType .object) s3))
    writeClassData w info.rtti o s4

/-- The linked-object loop of `ObjectStreamOut::Write`:
`while (!mObjectQueue.empty() && !mStream.fail()) { WriteObject(front); pop; }`. -/
def writeLoop (w : World) (cfuel : Nat) : Nat → OState → OState
  | 0, s => s
  | fuel + 1, s =>
    match s.objectQueue with
    | [] => s
    | o :: _ =>
      if s.fail then s
      else
        let s1 := writeObject w cfuel o s
        writeLoop w cfuel fuel { s1 with objectQueue := s1.objectQueue.drop 1 }

/-- `ObjectStreamOut::Write`: insert the root into the identifier map with
the next identifier (post-incrementing the counter), write it, then drain
the object queue; return whether the stream remained fault-free. -/
def write (w : World) (cfuel ofuel : Nat) (root : ObjId) (rootT : TypeId)
    (s0 : OState) : Bool × OState :=
  let s1 :=
    { s0 with
      identifierMap := insertNew s0.identifierMap root ⟨s0.nextIdentifier, rootT⟩
      nextIdentifier := s0.nextIdentifier + 1 }
  let s2 := writeObject w cfuel root s1
  let s3 := writeLoop w cfuel ofuel s2
  (!s3.fail, s3)

/-! ### Well-formedness of a world

Member types of registered attributes are valid registry indices, and
pointer fields point into the heap at an object whose dynamic type is the
attribute's member type (the contract of the external type metadata
provider). -/

def wfAttrB (w : World) : Attr → Bool
  | .nonSerializable => true
  | .primAttr _ _ none => true
  | .primAttr _ _ (some r) => decide (r < w.types.length)
  | .ptrAttr _ _ mt => decide (mt < w.types.length)

def wfObjB (w : World) (ob : Obj) : Bool :=
  decide (ob.type < w.types.length) &&
    (getType w ob.type).attrs.enum.all fun ia =>
      match ia.2 with
      | .ptrAttr _ _ mt =>
        match (fieldAt ob ia.1).toPtr with
        | some p => decide (p < w.heap.length) && decide ((getObj w p).type = mt)
        | none => true
      | _ => true

def wfB (w : World) : Bool :=
  (w.types.all fun td => td.attrs.all (wfAttrB w)) && w.heap.all (wfObjB w)

/-! ### Observations on the output log -/

/-- The successors of an object in the reference graph: the non-null
pointer fields at its type's pointer attributes. -/
def succsOf (w : World) (o : ObjId) : List ObjId :=
  (getType w (getObj w o).type).attrs.enum.filterMap fun ia =>
    match ia.2 with
    | .ptrAttr _ _ _ => (fieldAt (getObj w o) ia.1).toPtr
    | _ => none

/-- Reachability from the root through pointer attributes. -/
inductive Reaches (w : World) (root : ObjId) : ObjId → Prop
  | refl : Reaches w root root
  | step {o p : ObjId} : Reaches w root o → p ∈ succsOf w o → Reaches w root p

/-- The identifier of the full object record starting at position `j` of
the output, when the window `Object` tag / type name / identifier matches
there. -/
def hdrIdAt (out : List Rec) (j : Nat) : Option Identifier :=
  match out[j]?, out[j + 1]?, out[j + 2]? with
  | some (.dataType .object), some (.typeName _), some (.ident i) => some i
  | _, _, _ => none

/-- The identifiers of the full object records in the output, in order. -/
def hdrIds (out : List Rec) : List Identifier :=
  (List.range out.length).filterMap (hdrIdAt out)

/-- The records emitted for an object header by `WriteObject`. -/
def headerRecs (T : TypeId) (id : Identifier) : List Rec :=
  [.hint, .hint, .dataType .object, .typeName T, .ident id]

/-- A class declaration record for `T` starts at index `d`. -/
def DeclAt (out : List Rec) (d : Nat) (T : TypeId) : Prop :=
  out[d]? = some (.dataType .declare) ∧ out[d + 1]? = some (.typeName T)

/-- A full object record of type `T` starts at index `j`. -/
def HdrAt (out : List Rec) (j : Nat) (T : TypeId) : Prop :=
  out[j]? = some (.dataType .object) ∧ out[j + 1]? = some (.typeName T)

/-- Some class declaration record for `T` occurs in the output. -/
def Declared (out : List Rec) (T : TypeId) : Prop :=
  ∃ d, DeclAt out d T

/-- Records that are safe as the last element of the log: they are not part
of a possibly incomplete object-header or declaration pattern (which start
with an `Object`/`Declare` tag followed by a type name). -/
def tailOKrec : Rec → Bool
  | .dataType .object => false
  | .dataType .declare => false
  | .typeName _ => false
  | _ => true

def tailOKb (out : List Rec) : Bool :=
  match out.getLast? with
  | none => true
  | some l => tailOKrec l

/-- The member types queued by a run of `WriteRTTI`'s attribute loop
(the non-null `GetMemberPrimitiveType` results of serializable
attributes, in order). -/
def memsOfAttrs (as : List Attr) : List TypeId :=
  as.filterMap fun a =>
    match a with
    | .nonSerializable => none
    | .primAttr _ _ mt => mt
    | .ptrAttr _ _ mt => some mt

def memberTypesOf (w : World) (t : TypeId) : List TypeId :=
  memsOfAttrs (getType w t).attrs

/-- An `RTTIAttribute` that casts to `SerializableAttribute`. -/
def isSerializable : Attr → Bool
  | .nonSerializable => false
  | _ => true

/-- Records that carry an attribute's name in a class declaration. -/
def isAttrNameRec : Rec → Bool
  | .attrName _ => true
  | _ => false

/-- Records that carry one attribute data value of an object record:
a primitive value or a reference identifier. -/
def isDataVal : Rec → Bool
  | .primData _ => true
  | .ident _ => true
  | _ => false

/-- Sequential `QueueRTTI` over a list of types. -/
def queueAll : List TypeId → OState → OState
  | [], s => s
  | t :: rest, s => queueAll rest (queueRTTI t s)

/-- The records emitted by `WriteRTTI`'s attribute loop; they do not
depend on the serializer state. -/
def attrDeclRecs : List Attr → List Rec
  | [] => []
  | .nonSerializable :: rest => attrDeclRecs rest
  | .primAttr nm tg _ :: rest => [.hint, .attrName nm, .dataType (.tg tg)] ++ attrDeclRecs rest
  | .ptrAttr nm tg _ :: rest => [.hint, .attrName nm, .dataType (.tg tg)] ++ attrDeclRecs rest

/-- The whole record chunk emitted by one `WriteRTTI` call on a
fault-free stream. -/
def rttiChunk (w : World) (t : TypeId) : List Rec :=
  [.hint, .hint, .dataType .declare, .typeName t, .count (getType w t).attrs.length, .indentUp]
    ++ attrDeclRecs (getType w t).attrs ++ [.indentDown]

/-- The identifier recorded for an object in the identifier map
(`0` when absent — never used in that case). -/
def idOfIn (m : List (ObjId × ObjectInfo)) (o : ObjId) : Identifier :=
  match lookupId m o with
  | some info => info.identifier
  | none => 0

/-- The output log of `s'` extends that of `s`: records are only ever
appended, never removed or rewritten. -/
def OutExtends (s s' : OState) : Prop := ∃ c, s'.out = s.out ++ c

/-- What the external attribute contract guarantees about the pointer
attributes of object `o` for the attribute sub-list `as` starting at
attribute index `i`: pointer fields are valid heap handles of the declared
member type and are successors of `o` in the reference graph. -/
def PtrFieldsOK (w : World) (o : ObjId) (as : List Attr) (i : Nat) : Prop :=
  ∀ j nm tg mt p, as[j]? = some (.ptrAttr nm tg mt) →
    (fieldAt (getObj w o) (i + j)).toPtr = some p →
    p < w.heap.length ∧ (getObj w p).type = mt ∧ p ∈ succsOf w o

/-- The session invariant of the serializer, relating the session state to
the output log and the object graph.  It holds at every step of a
fault-free `Write` session rooted at `root`. -/
structure Inv (w : World) (root : ObjId) (rootT : TypeId) (s : OState) : Prop where
  ffa : s.failAfter = none
  ff : s.fail = false
  tail : tailOKb s.out = true
  next : s.nextIdentifier = s.identifierMap.length + 1
  ids : s.identifierMap.map (fun e => e.2.identifier) = List.range' 1 s.identifierMap.length
  keysNd : (s.identifierMap.map Prod.fst).Nodup
  qsub : ∀ o ∈ s.objectQueue, o ∈ s.identifierMap.map Prod.fst
  qnd : s.objectQueue.Nodup
  sound : ∀ e ∈ s.identifierMap, e.1 < w.heap.length ∧ e.2.rtti = (getObj w e.1).type ∧
            Reaches w root e.1
  headRoot : s.identifierMap.head? = some (root, ⟨1, rootT⟩)
  setDecl : ∀ T ∈ s.classSet, T ∈ w.prims ∨ T ∈ s.classQueue ∨ Declared s.out T
  declSet : ∀ T, Declared s.out T → T ∈ s.classSet
  hdrDecl : ∀ j T, HdrAt s.out j T → T ∉ w.prims → ∃ d, d < j ∧ DeclAt s.out d T
  cqSet : ∀ t ∈ s.classQueue, t ∈ s.classSet
  primsSet : ∀ t ∈ w.prims, t ∈ s.classSet
  cqNd : s.classQueue.Nodup
  cqUndecl : ∀ T ∈ s.classQueue, ¬ Declared s.out T
  declUniq : ∀ T d d', DeclAt s.out d T → DeclAt s.out d' T → d = d'
  primUndecl : ∀ T ∈ w.prims, ¬ Declared s.out T
  cqValid : ∀ t ∈ s.classQueue, t < w.types.length
  cqPrim : ∀ t ∈ s.classQueue, t ∉ w.prims
  declMember : ∀ T, Declared s.out T → ∀ m ∈ memberTypesOf w T, m ∈ s.classSet

/-- The object-record identifiers emitted so far, followed by the pending
queue's identifiers, are exactly the identifiers assigned so far.  Holds
between loop iterations of a fault-free session. -/
def HdrInv (s : OState) : Prop :=
  hdrIds s.out ++ s.objectQueue.map (idOfIn s.identifierMap)
    = s.identifierMap.map (fun e => e.2.identifier)

/-- Every registered object is still pending or has had all its
successors registered.  Holds between loop iterations. -/
def Closed (w : World) (s : OState) : Prop :=
  ∀ o ∈ s.identifierMap.map Prod.fst,
    o ∈ s.objectQueue ∨ ∀ p ∈ succsOf w o, p ∈ s.identifierMap.map Prod.fst

/-- Every registered object is still pending or has its type in the class
set.  Holds between loop iterations. -/
def InstOK (s : OState) : Prop :=
  ∀ e ∈ s.identifierMap, e.1 ∈ s.objectQueue ∨ e.2.rtti ∈ s.classSet

/-- The termination measure of the class-declaration drain loop. -/
def classMeasure (w : World) (s : OState) : Nat :=
  s.classQueue.length +
    ((List.range w.types.length).filter (fun t => t ∉ s.classSet)).length

/-- The termination measure of the object loop. -/
def objMeasure (w : World) (s : OState) : Nat :=
  s.objectQueue.length + (w.heap.length - s.identifierMap.length)

/-- Concrete world: two `Node {value : int, next : Node*}` objects, the
root pointing at a second node whose `next` is null (the spec's
scenario B). -/
def nodeW : World :=
  { types := [⟨[.primAttr "value" 1 none, .ptrAttr "next" 2 0]⟩]
    heap := [⟨0, [.prim 5, .ptr (some 1)]⟩, ⟨0, [.prim 7, .ptr none]⟩]
    prims := [] }

/-- Concrete world: a single self-referencing `Node` (the spec's
scenario D). -/
def selfW : World :=
  { types := [⟨[.ptrAttr "next" 2 0]⟩]
    heap := [⟨0, [.ptr (some 0)]⟩]
    prims := [] }

/-- Concrete world with one primitive type (type 1), referenced as the
member primitive type of the root type's only attribute. -/
def primW : World :=
  { types := [⟨[.primAttr "x" 1 (some 1)]⟩, ⟨[]⟩]
    heap := [⟨0, [.prim 3]⟩]
    prims := [1] }

/-- The serializer state after a complete `Write` session on a fault-free
stream: the root is written with its dynamic type, exactly as
`ObjectStreamOut::Write` is called by the serialization entry points. -/
def finalState (w : World) (cfuel ofuel : Nat) (root : ObjId) : OState :=
  (write w cfuel ofuel root (getObj w root).type (initState w none)).2

/-! ### Basic lemmas on the state operations -/

theorem hash_combine_eq_foldl (fields : List Nat) :
    ∀ seed, hash_combine seed fields = fields.foldl hashCombineStep seed := by
  induction fields with
  | nil => intro seed; rfl
  | cons h t ih => intro seed; simp only [hash_combine, List.foldl]; exact ih _

theorem lookupId_mem {m : List (ObjId × ObjectInfo)} {o : ObjId} {v : ObjectInfo}
    (h : lookupId m o = some v) : (o, v) ∈ m := by
  induction m with
  | nil => simp [lookupId] at h
  | cons e rest ih =>
    obtain ⟨k, w⟩ := e
    by_cases hk : k = o
    · subst hk
      simp [lookupId] at h
      simp [h]
    · simp [lookupId, hk] at h
      exact List.mem_cons_of_mem _ (ih h)

theorem lookupId_isSome_iff {m : List (ObjId × ObjectInfo)} {o : ObjId} :
    (lookupId m o).isSome ↔ o ∈ m.map Prod.fst := by
  induction m with
  | nil => simp [lookupId]
  | cons e rest ih =>
    obtain ⟨k, w⟩ := e
    by_cases hk : k = o
    · subst hk; simp [lookupId]
    · simp [lookupId, hk, ih, Ne.symm hk]

theorem lookupId_eq_none_iff {m : List (ObjId × ObjectInfo)} {o : ObjId} :
    lookupId m o = none ↔ o ∉ m.map Prod.fst := by
  rw [← lookupId_isSome_iff]
  cases lookupId m o <;> simp

theorem lookupId_append_left {m m' : List (ObjId × ObjectInfo)} {o : ObjId} {v : ObjectInfo}
    (h : lookupId m o = some v) : lookupId (m ++ m') o = some v := by
  induction m with
  | nil => simp [lookupId] at h
  | cons e rest ih =>
    obtain ⟨k, w⟩ := e
    by_cases hk : k = o
    · subst hk; simp_all [lookupId]
    · simp_all [lookupId, hk]

theorem lookupId_append_right {m m' : List (ObjId × ObjectInfo)} {o : ObjId}
    (h : lookupId m o = none) : lookupId (m ++ m') o = lookupId m' o := by
  induction m with
  | nil => simp [lookupId]
  | cons e rest ih =>
    obtain ⟨k, w⟩ := e
    by_cases hk : k = o
    · subst hk; simp [lookupId] at h
    · simp_all [lookupId, hk]

@[simp] theorem emit_identifierMap (r : Rec) (s : OState) :
    (emit r s).identifierMap = s.identifierMap := by
  simp only [emit]
  split <;> [rfl; (split <;> rfl)]

@[simp] theorem emit_classSet (r : Rec) (s : OState) :
    (emit r s).classSet = s.classSet := by
  simp only [emit]
  split <;> [rfl; (split <;> rfl)]

@[simp] theorem emit_classQueue (r : Rec) (s : OState) :
    (emit r s).classQueue = s.classQueue := by
  simp only [emit]
  split <;> [rfl; (split <;> rfl)]

@[simp] theorem emit_objectQueue (r : Rec) (s : OState) :
    (emit r s).objectQueue = s.objectQueue := by
  simp only [emit]
  split <;> [rfl; (split <;> rfl)]

@[simp] theorem emit_nextIdentifier (r : Rec) (s : OState) :
    (emit r s).nextIdentifier = s.nextIdentifier := by
  simp only [emit]
  split <;> [rfl; (split <;> rfl)]

theorem emit_of_fail {s : OState} (r : Rec) (h : s.fail = true) : emit r s = s := by
  simp [emit, h]

theorem emit_of_ff {s : OState} (r : Rec) (h1 : s.fail = false) (h2 : s.failAfter = none) :
    emit r s = { s with out := s.out ++ [r] } := by
  simp [emit, h1, h2]

@[simp] theorem queueRTTI_out (t : TypeId) (s : OState) : (queueRTTI t s).out = s.out := by
  simp only [queueRTTI]; split <;> rfl

@[simp] theorem queueRTTI_fail (t : TypeId) (s : OState) : (queueRTTI t s).fail = s.fail := by
  simp only [queueRTTI]; split <;> rfl

@[simp] theorem queueRTTI_failAfter (t : TypeId) (s : OState) :
    (queueRTTI t s).failAfter = s.failAfter := by
  simp only [queueRTTI]; split <;> rfl

@[simp] theorem queueRTTI_identifierMap (t : TypeId) (s : OState) :
    (queueRTTI t s).identifierMap = s.identifierMap := by
  simp only [queueRTTI]; split <;> rfl

@[simp] theorem queueRTTI_objectQueue (t : TypeId) (s : OState) :
    (queueRTTI t s).objectQueue = s.objectQueue := by
  simp only [queueRTTI]; split <;> rfl

@[simp] theorem queueRTTI_nextIdentifier (t : TypeId) (s : OState) :
    (queueRTTI t s).nextIdentifier = s.nextIdentifier := by
  simp only [queueRTTI]; split <;> rfl

theorem queueRTTI_of_mem {t : TypeId} {s : OState} (h : t ∈ s.classSet) :
    queueRTTI t s = s := by
  simp [queueRTTI, h]

theorem queueRTTI_of_not_mem {t : TypeId} {s : OState} (h : t ∉ s.classSet) :
    queueRTTI t s =
      { s with classSet := t :: s.classSet, classQueue := s.classQueue ++ [t] } := by
  simp [queueRTTI, h]

/-! ### Hash combiner: claim C10 -/

/-- C10: `hash_combine` with no value arguments leaves the seed unchanged,
and for every list of fields the functor generated by
`JPH_MAKE_HASH_STRUCT` is the deterministic left fold, from seed `0`, of
the step `seed ^= hash(value) + 0x9e3779b9 + (seed << 6) + (seed >> 2)`
over the fields in order; equal field values give equal hashes. -/
theorem C10_hash_fold :
    (∀ seed : Nat, hash_combine seed [] = seed) ∧
    (∀ fields : List Nat, makeHashStruct fields = fields.foldl hashCombineStep 0) ∧
    (∀ f g : List Nat, f = g → makeHashStruct f = makeHashStruct g) := by
  refine ⟨fun _ => rfl, fun fields => hash_combine_eq_foldl fields 0, ?_⟩
  intro f g h
  rw [h]

theorem C10_hash_fold_witness : makeHashStruct [3, 5] = makeHashStruct [3, 5] :=
  C10_hash_fold.2.2 [3, 5] [3, 5] rfl

/-! ### Pointer resolution: claim C3 -/

/-- C3: `WritePointerData` on an absent pointer emits a boundary hint then
the null identifier `0`; on an already-seen pointee it emits a hint then
the existing identifier, scheduling nothing; on a fresh pointee it
allocates the next identifier, inserts an `ObjectInfo` keyed by the
pointee, enqueues the pointee on the object queue, and emits a hint then
the new identifier.  Under the session invariant that all allocated
identifiers are positive, `0` is emitted only for absent references. -/
theorem C3_pointer_resolution (mt : TypeId) (s : OState)
    (h1 : s.fail = false) (h2 : s.failAfter = none)
    (hpos : ∀ e ∈ s.identifierMap, sNullIdentifier < e.2.identifier)
    (hnext : sNullIdentifier < s.nextIdentifier) :
    (writePointerData mt none s =
      { s with out := s.out ++ [.hint, .ident sNullIdentifier] }) ∧
    (∀ p info, lookupId s.identifierMap p = some info →
      writePointerData mt (some p) s =
        { s with out := s.out ++ [.hint, .ident info.identifier] } ∧
      info.identifier ≠ sNullIdentifier) ∧
    (∀ p, lookupId s.identifierMap p = none →
      writePointerData mt (some p) s =
        { s with
          out := s.out ++ [.hint, .ident s.nextIdentifier]
          identifierMap := s.identifierMap ++ [(p, ⟨s.nextIdentifier, mt⟩)]
          objectQueue := s.objectQueue ++ [p]
          nextIdentifier := s.nextIdentifier + 1 } ∧
      s.nextIdentifier ≠ sNullIdentifier) := by
  refine ⟨?_, ?_, ?_⟩
  · simp [writePointerData, emit_of_ff _ h1 h2, emit, h1, h2]
  · intro p info hlk
    constructor
    · simp [writePointerData, hlk, emit_of_ff _ h1 h2, emit, h1, h2]
    · exact Nat.ne_of_gt (hpos _ (lookupId_mem hlk))
  · intro p hlk
    constructor
    · simp [writePointerData, hlk, emit_of_ff _ h1 h2, emit, h1, h2]
    · exact Nat.ne_of_gt hnext

theorem C3_pointer_resolution_witness :
    writePointerData 0 none (initState ⟨[], [], []⟩ none) =
      { initState ⟨[], [], []⟩ none with out := [.hint, .ident sNullIdentifier] } :=
  (C3_pointer_resolution 0 (initState ⟨[], [], []⟩ none) rfl rfl
    (by simp [initState]) (by decide)).1

/-! ### Effects of `queueAll` and the declaration-side functions -/

@[simp] theorem queueAll_out (X : List TypeId) (s : OState) : (queueAll X s).out = s.out := by
  induction X generalizing s with
  | nil => rfl
  | cons t rest ih => simp [queueAll, ih]

@[simp] theorem queueAll_fail (X : List TypeId) (s : OState) :
    (queueAll X s).fail = s.fail := by
  induction X generalizing s with
  | nil => rfl
  | cons t rest ih => simp [queueAll, ih]

@[simp] theorem queueAll_failAfter (X : List TypeId) (s : OState) :
    (queueAll X s).failAfter = s.failAfter := by
  induction X generalizing s with
  | nil => rfl
  | cons t rest ih => simp [queueAll, ih]

@[simp] theorem queueAll_identifierMap (X : List TypeId) (s : OState) :
    (queueAll X s).identifierMap = s.identifierMap := by
  induction X generalizing s with
  | nil => rfl
  | cons t rest ih => simp [queueAll, ih]

@[simp] theorem queueAll_objectQueue (X : List TypeId) (s : OState) :
    (queueAll X s).objectQueue = s.objectQueue := by
  induction X generalizing s with
  | nil => rfl
  | cons t rest ih => simp [queueAll, ih]

@[simp] theorem queueAll_nextIdentifier (X : List TypeId) (s : OState) :
    (queueAll X s).nextIdentifier = s.nextIdentifier := by
  induction X generalizing s with
  | nil => rfl
  | cons t rest ih => simp [queueAll, ih]

theorem queueAll_set_out (X : List TypeId) (s : OState) (b : List Rec) :
    queueAll X { s with out := b } = { queueAll X s with out := b } := by
  induction X generalizing s with
  | nil => rfl
  | cons t rest ih =>
    have h : queueRTTI t { s with out := b } = { queueRTTI t s with out := b } := by
      by_cases hm : t ∈ s.classSet
      · rw [queueRTTI_of_mem hm, queueRTTI_of_mem (by simpa using hm)]
      · rw [queueRTTI_of_not_mem hm, queueRTTI_of_not_mem (by simpa using hm)]
    simp only [queueAll, h, ih]

theorem writeAttrsDecl_eq (as : List Attr) :
    ∀ s : OState, s.fail = false → s.failAfter = none →
      writeAttrsDecl as s =
        { queueAll (memsOfAttrs as) s with out := s.out ++ attrDeclRecs as } := by
  induction as with
  | nil =>
    intro s h1 h2
    simp [writeAttrsDecl, memsOfAttrs, queueAll, attrDeclRecs]
  | cons a rest ih =>
    intro s h1 h2
    match a with
    | .nonSerializable =>
      simp only [writeAttrsDecl]
      rw [ih s h1 h2]
      simp [memsOfAttrs, attrDeclRecs]
    | .primAttr nm tg none =>
      simp only [writeAttrsDecl]
      rw [show emit (.dataType (.tg tg)) (emit (.attrName nm) (emit .hint s)) =
            { s with out := s.out ++ [.hint, .attrName nm, .dataType (.tg tg)] } from by
        simp [emit, h1, h2]]
      have hrec := ih { s with out := s.out ++ [.hint, .attrName nm, .dataType (.tg tg)] } h1 h2
      rw [hrec, queueAll_set_out]
      simp [memsOfAttrs, attrDeclRecs]
    | .primAttr nm tg (some r) =>
      simp only [writeAttrsDecl]
      rw [show emit (.dataType (.tg tg)) (emit (.attrName nm) (emit .hint (queueRTTI r s))) =
            { queueRTTI r s with out := s.out ++ [.hint, .attrName nm, .dataType (.tg tg)] } from by
        simp [emit, h1, h2]]
      have hrec := ih
        { queueRTTI r s with out := s.out ++ [.hint, .attrName nm, .dataType (.tg tg)] }
        (by simp [h1]) (by simp [h2])
      rw [hrec, queueAll_set_out]
      simp [memsOfAttrs, attrDeclRecs, queueAll]
    | .ptrAttr nm tg mt =>
      simp only [writeAttrsDecl]
      rw [show emit (.dataType (.tg tg)) (emit (.attrName nm) (emit .hint (queueRTTI mt s))) =
            { queueRTTI mt s with out := s.out ++ [.hint, .attrName nm, .dataType (.tg tg)] } from by
        simp [emit, h1, h2]]
      have hrec := ih
        { queueRTTI mt s with out := s.out ++ [.hint, .attrName nm, .dataType (.tg tg)] }
        (by simp [h1]) (by simp [h2])
      rw [hrec, queueAll_set_out]
      simp [memsOfAttrs, attrDeclRecs, queueAll]

theorem writeRTTI_eq (w : World) (t : TypeId) (s : OState)
    (h1 : s.fail = false) (h2 : s.failAfter = none) :
    writeRTTI w t s =
      { queueAll (memberTypesOf w t) s with out := s.out ++ rttiChunk w t } := by
  simp only [writeRTTI]
  rw [show emit .indentUp (emit (.count (getType w t).attrs.length) (emit (.typeName t)
        (emit (.dataType .declare) (emit .hint (emit .hint s))))) =
      { s with out := s.out ++ [.hint, .hint, .dataType .declare, .typeName t,
          .count (getType w t).attrs.length, .indentUp] } from by
    simp [emit, h1, h2]]
  have hrec := writeAttrsDecl_eq (getType w t).attrs
    { s with out := s.out ++ [.hint, .hint, .dataType .declare, .typeName t,
        .count (getType w t).attrs.length, .indentUp] } h1 h2
  rw [hrec, queueAll_set_out]
  rw [emit_of_ff _ (by simpa using h1) (by simpa using h2)]
  simp [rttiChunk, memberTypesOf]

theorem writePointerData_none_eq (mt : TypeId) {s : OState}
    (h1 : s.fail = false) (h2 : s.failAfter = none) :
    writePointerData mt none s =
      { s with out := s.out ++ [.hint, .ident sNullIdentifier] } := by
  simp [writePointerData, emit, h1, h2]

theorem writePointerData_found_eq (mt : TypeId) {s : OState} {p : ObjId} {info : ObjectInfo}
    (h1 : s.fail = false) (h2 : s.failAfter = none)
    (hlk : lookupId s.identifierMap p = some info) :
    writePointerData mt (some p) s =
      { s with out := s.out ++ [.hint, .ident info.identifier] } := by
  simp [writePointerData, hlk, emit, h1, h2]

theorem writePointerData_fresh_eq (mt : TypeId) {s : OState} {p : ObjId}
    (h1 : s.fail = false) (h2 : s.failAfter = none)
    (hlk : lookupId s.identifierMap p = none) :
    writePointerData mt (some p) s =
      { s with
        out := s.out ++ [.hint, .ident s.nextIdentifier]
        identifierMap := s.identifierMap ++ [(p, ⟨s.nextIdentifier, mt⟩)]
        objectQueue := s.objectQueue ++ [p]
        nextIdentifier := s.nextIdentifier + 1 } := by
  simp [writePointerData, hlk, emit, h1, h2]

/-- Under a fault-free stream, `WritePointerData` always appends exactly a
hint and one identifier, preserves the fault-free state and does not touch
the class set or class queue; the identifier map and object queue can only
grow by appended entries. -/
theorem writePointerData_basic (mt : TypeId) (p : Option ObjId) (s : OState)
    (h1 : s.fail = false) (h2 : s.failAfter = none) :
    ∃ x, (writePointerData mt p s).out = s.out ++ [.hint, .ident x] ∧
      (writePointerData mt p s).fail = false ∧
      (writePointerData mt p s).failAfter = none ∧
      (writePointerData mt p s).classSet = s.classSet ∧
      (writePointerData mt p s).classQueue = s.classQueue := by
  match p with
  | none =>
    exact ⟨sNullIdentifier, by rw [writePointerData_none_eq mt h1 h2]; simp [h1, h2]⟩
  | some q =>
    match hlk : lookupId s.identifierMap q with
    | some info =>
      exact ⟨info.identifier, by rw [writePointerData_found_eq mt h1 h2 hlk]; simp [h1, h2]⟩
    | none =>
      exact ⟨s.nextIdentifier, by rw [writePointerData_fresh_eq mt h1 h2 hlk]; simp [h1, h2]⟩

/-- The attribute-data loop of `WriteClassData` on a fault-free stream:
it appends only hints, primitive values and reference identifiers, with
exactly one data value per serializable attribute, and does not touch the
class set or class queue. -/
theorem writeAttrsData_chunk (w : World) (o : ObjId) (as : List Attr) :
    ∀ (i : Nat) (s : OState), s.fail = false → s.failAfter = none →
      ∃ c, (writeAttrsData w o as i s).out = s.out ++ c ∧
        (∀ r ∈ c, r = .hint ∨ (∃ v, r = .primData v) ∨ ∃ n, r = .ident n) ∧
        c.countP isDataVal = as.countP isSerializable ∧
        (writeAttrsData w o as i s).fail = false ∧
        (writeAttrsData w o as i s).failAfter = none ∧
        (writeAttrsData w o as i s).classSet = s.classSet ∧
        (writeAttrsData w o as i s).classQueue = s.classQueue := by
  induction as with
  | nil =>
    intro i s h1 h2
    exact ⟨[], by simp [writeAttrsData, h1, h2, isSerializable]⟩
  | cons a rest ih =>
    intro i s h1 h2
    match a with
    | .nonSerializable =>
      obtain ⟨c, hc⟩ := ih (i + 1) s h1 h2
      refine ⟨c, ?_⟩
      simpa [writeAttrsData, isSerializable] using hc
    | .primAttr nm tg mt =>
      have hs1 : emit (.primData (fieldAt (getObj w o) i).toPrim) (emit .hint s) =
          { s with out := s.out ++ [.hint, .primData (fieldAt (getObj w o) i).toPrim] } := by
        simp [emit, h1, h2]
      obtain ⟨c, hout, hkind, hcount, h1', h2', hcs, hcq⟩ :=
        ih (i + 1) { s with out := s.out ++ [.hint, .primData (fieldAt (getObj w o) i).toPrim] }
          h1 h2
      refine ⟨[.hint, .primData (fieldAt (getObj w o) i).toPrim] ++ c, ?_, ?_, ?_, ?_, ?_, ?_, ?_⟩
      · simp only [writeAttrsData, hs1]
        rw [hout]
        simp
      · intro r hr
        rcases List.mem_append.mp hr with hr | hr
        · simp only [List.mem_cons, List.not_mem_nil, or_false] at hr
          rcases hr with rfl | rfl
          · exact Or.inl rfl
          · exact Or.inr (Or.inl ⟨_, rfl⟩)
        · exact hkind r hr
      · simp [List.countP_append, hcount, isDataVal, isSerializable, List.countP_cons]
      · simpa [writeAttrsData, hs1] using h1'
      · simpa [writeAttrsData, hs1] using h2'
      · simpa [writeAttrsData, hs1] using hcs
      · simpa [writeAttrsData, hs1] using hcq
    | .ptrAttr nm tg mt =>
      obtain ⟨x, hx⟩ :=
        writePointerData_basic mt (fieldAt (getObj w o) i).toPtr s h1 h2
      obtain ⟨hxout, hxf, hxfa, hxcs, hxcq⟩ := hx
      obtain ⟨c, hout, hkind, hcount, h1', h2', hcs, hcq⟩ :=
        ih (i + 1) (writePointerData mt (fieldAt (getObj w o) i).toPtr s) hxf hxfa
      refine ⟨[.hint, .ident x] ++ c, ?_, ?_, ?_, ?_, ?_, ?_, ?_⟩
      · simp only [writeAttrsData]
        rw [hout, hxout]
        simp
      · intro r hr
        rcases List.mem_append.mp hr with hr | hr
        · simp only [List.mem_cons, List.not_mem_nil, or_false] at hr
          rcases hr with rfl | rfl
          · exact Or.inl rfl
          · exact Or.inr (Or.inr ⟨_, rfl⟩)
        · exact hkind r hr
      · simp [List.countP_append, hcount, isDataVal, isSerializable, List.countP_cons]
      · simpa [writeAttrsData] using h1'
      · simpa [writeAttrsData] using h2'
      · simp only [writeAttrsData]
        rw [hcs, hxcs]
      · simp only [writeAttrsData]
        rw [hcq, hxcq]

/-! ### Window lemmas on the output log -/

theorem tailOK_last {out : List Rec} {k : Nat} {r : Rec} (hT : tailOKb out = true)
    (h : out[k]? = some r) (hk : k + 1 = out.length) : tailOKrec r = true := by
  unfold tailOKb at hT
  rw [List.getLast?_eq_getElem? out] at hT
  have he : out.length - 1 = k := by omega
  rw [he, h] at hT
  exact hT

theorem tailOKb_append {out c : List Rec} (hc : c ≠ []) :
    tailOKb (out ++ c) = tailOKb c := by
  unfold tailOKb
  rw [List.getLast?_append_of_ne_nil out hc]

theorem hdrIdAt_eq_none_of_fst {l : List Rec} {j : Nat} {r : Rec}
    (h : l[j]? = some r) (hr : tailOKrec r = true) : hdrIdAt l j = none := by
  unfold hdrIdAt
  rw [h]
  rcases r with _ | _ | _ | t | t | s | n | i | v <;> try simp
  rcases t with _ | _ | n <;> simp_all [tailOKrec]

theorem hdrIdAt_eq_none_of_snd {l : List Rec} {j : Nat} {r : Rec}
    (h : l[j + 1]? = some r) (hr : tailOKrec r = true) : hdrIdAt l j = none := by
  unfold hdrIdAt
  rw [h]
  have hopt := Option.eq_none_or_eq_some (getElem? l j)
  rcases hopt with h0 | ⟨r0, h0⟩
  · rw [h0]
  · rw [h0]
    rcases r0 with _ | _ | _ | t | t | s | n | i | v <;> try simp
    rcases t with _ | _ | n <;> try simp
    rcases r with _ | _ | _ | t1 | t1 | s1 | n1 | i1 | v1 <;> simp_all [tailOKrec]

theorem hdrIdAt_append_left {out c : List Rec} {j : Nat}
    (hT : tailOKb out = true) (hj : j < out.length) :
    hdrIdAt (out ++ c) j = hdrIdAt out j := by
  by_cases h2 : j + 2 < out.length
  · unfold hdrIdAt
    rw [List.getElem?_append_left hj, List.getElem?_append_left (by omega),
      List.getElem?_append_left h2]
  · by_cases h1 : j + 1 < out.length
    · have hr := List.getElem?_eq_getElem h1
      have hsafe := tailOK_last hT hr (by omega)
      have hr2 : (out ++ c)[j + 1]? = some out[j + 1] := by
        rw [List.getElem?_append_left h1]
        exact hr
      rw [hdrIdAt_eq_none_of_snd hr hsafe, hdrIdAt_eq_none_of_snd hr2 hsafe]
    · have hr := List.getElem?_eq_getElem hj
      have hsafe := tailOK_last hT hr (by omega)
      have hr2 : (out ++ c)[j]? = some out[j] := by
        rw [List.getElem?_append_left hj]
        exact hr
      rw [hdrIdAt_eq_none_of_fst hr hsafe, hdrIdAt_eq_none_of_fst hr2 hsafe]

theorem hdrIdAt_append_right (out c : List Rec) (j : Nat) :
    hdrIdAt (out ++ c) (out.length + j) = hdrIdAt c j := by
  unfold hdrIdAt
  rw [List.getElem?_append_right (by omega), List.getElem?_append_right (by omega),
    List.getElem?_append_right (by omega)]
  have e0 : out.length + j - out.length = j := by omega
  have e1 : out.length + j + 1 - out.length = j + 1 := by omega
  have e2 : out.length + j + 2 - out.length = j + 2 := by omega
  rw [e0, e1, e2]

theorem hdrIds_append {out c : List Rec} (hT : tailOKb out = true) :
    hdrIds (out ++ c) = hdrIds out ++ hdrIds c := by
  unfold hdrIds
  rw [List.length_append, List.range_add, List.filterMap_append, List.filterMap_map]
  congr 1
  · exact List.filterMap_congr fun j hj =>
      hdrIdAt_append_left hT (List.mem_range.mp hj)
  · exact List.filterMap_congr fun j _ => hdrIdAt_append_right out c j

theorem hdrIds_eq_nil {c : List Rec} (h : ∀ r ∈ c, r ≠ .dataType .object) :
    hdrIds c = [] := by
  unfold hdrIds
  rw [List.filterMap_eq_nil_iff]
  intro j _
  unfold hdrIdAt
  have hopt := Option.eq_none_or_eq_some (getElem? c j)
  rcases hopt with hcj | ⟨r, hcj⟩
  · rw [hcj]
  · rw [hcj]
    have hmem := List.getElem?_mem hcj
    have hne := h r hmem
    rcases r with _ | _ | _ | t | t | s | n | i | v <;> try simp
    rcases t with _ | _ | n <;> simp_all

theorem hdrIds_headerRecs (T : TypeId) (id : Identifier) :
    hdrIds (headerRecs T id) = [id] := by
  simp [hdrIds, headerRecs, hdrIdAt, List.range_succ]

theorem tailOKb_headerRecs (T : TypeId) (id : Identifier) :
    tailOKb (headerRecs T id) = true := rfl

/-- The two-record window at `d` splits across an append when the prefix
ends in a tail-safe record and the window's first record is not
tail-safe. -/
theorem win2_append {out c : List Rec} {d : Nat} {a b : Rec}
    (hT : tailOKb out = true) (ha : tailOKrec a = false) :
    ((out ++ c)[d]? = some a ∧ (out ++ c)[d + 1]? = some b) ↔
      ((out[d]? = some a ∧ out[d + 1]? = some b) ∨
        (out.length ≤ d ∧ getElem? c (d - out.length) = some a ∧
          getElem? c (d + 1 - out.length) = some b)) := by
  by_cases hd : d + 1 < out.length
  · rw [List.getElem?_append_left (by omega), List.getElem?_append_left hd]
    constructor
    · exact Or.inl
    · rintro (h | ⟨hge, _⟩)
      · exact h
      · omega
  · by_cases hd0 : d < out.length
    · have hr := List.getElem?_eq_getElem hd0
      have hsafe := tailOK_last hT hr (by omega)
      constructor
      · rintro ⟨h1, _⟩
        rw [List.getElem?_append_left hd0, hr] at h1
        injection h1 with h1
        rw [h1] at hsafe
        rw [ha] at hsafe
        exact absurd hsafe (by simp)
      · rintro (⟨h1, _⟩ | ⟨hge, _⟩)
        · rw [hr] at h1
          injection h1 with h1
          rw [h1] at hsafe
          rw [ha] at hsafe
          exact absurd hsafe (by simp)
        · omega
    · have hge : out.length ≤ d := by omega
      rw [List.getElem?_append_right hge, List.getElem?_append_right (by omega)]
      constructor
      · intro h
        exact Or.inr ⟨hge, h.1, h.2⟩
      · rintro (⟨h1, _⟩ | ⟨_, h1, h2⟩)
        · have := (List.getElem?_eq_some.mp h1).1
          omega
        · exact ⟨h1, h2⟩

theorem declAt_append {out c : List Rec} {d : Nat} {T : TypeId}
    (hT : tailOKb out = true) :
    DeclAt (out ++ c) d T ↔
      (DeclAt out d T ∨ (out.length ≤ d ∧ DeclAt c (d - out.length) T)) := by
  unfold DeclAt
  rw [win2_append hT (by simp [tailOKrec])]
  constructor
  · rintro (h | ⟨hge, h1, h2⟩)
    · exact Or.inl h
    · refine Or.inr ⟨hge, h1, ?_⟩
      have e : d + 1 - out.length = d - out.length + 1 := by omega
      rw [← e]
      exact h2
  · rintro (h | ⟨hge, h1, h2⟩)
    · exact Or.inl h
    · refine Or.inr ⟨hge, h1, ?_⟩
      have e : d + 1 - out.length = d - out.length + 1 := by omega
      rw [e]
      exact h2

theorem hdrAt_append {out c : List Rec} {j : Nat} {T : TypeId}
    (hT : tailOKb out = true) :
    HdrAt (out ++ c) j T ↔
      (HdrAt out j T ∨ (out.length ≤ j ∧ HdrAt c (j - out.length) T)) := by
  unfold HdrAt
  rw [win2_append hT (by simp [tailOKrec])]
  constructor
  · rintro (h | ⟨hge, h1, h2⟩)
    · exact Or.inl h
    · refine Or.inr ⟨hge, h1, ?_⟩
      have e : j + 1 - out.length = j - out.length + 1 := by omega
      rw [← e]
      exact h2
  · rintro (h | ⟨hge, h1, h2⟩)
    · exact Or.inl h
    · refine Or.inr ⟨hge, h1, ?_⟩
      have e : j + 1 - out.length = j - out.length + 1 := by omega
      rw [e]
      exact h2

theorem declared_append {out c : List Rec} {T : TypeId} (hT : tailOKb out = true) :
    Declared (out ++ c) T ↔ (Declared out T ∨ ∃ d, DeclAt c d T) := by
  constructor
  · rintro ⟨d, hd⟩
    rcases (declAt_append hT).mp hd with h | ⟨_, h⟩
    · exact Or.inl ⟨d, h⟩
    · exact Or.inr ⟨_, h⟩
  · rintro (⟨d, hd⟩ | ⟨d, hd⟩)
    · exact ⟨d, (declAt_append hT).mpr (Or.inl hd)⟩
    · refine ⟨out.length + d, (declAt_append hT).mpr (Or.inr ⟨by omega, ?_⟩)⟩
      have e : out.length + d - out.length = d := by omega
      rw [e]
      exact hd

theorem declared_mono {out c : List Rec} (hT : tailOKb out = true) {T : TypeId}
    (h : Declared out T) : Declared (out ++ c) T :=
  (declared_append hT).mpr (Or.inl h)

theorem tailOKb_append_neutral {out c : List Rec} (hT : tailOKb out = true)
    (hc : ∀ r ∈ c, tailOKrec r = true) : tailOKb (out ++ c) = true := by
  cases c with
  | nil => simpa using hT
  | cons r0 c0 =>
    rw [tailOKb_append (by simp)]
    unfold tailOKb
    cases hl : (r0 :: c0).getLast? with
    | none => rfl
    | some l => exact hc l (List.mem_of_getLast?_eq_some hl)

theorem no_declAt_of_neutral {c : List Rec} (hc : ∀ r ∈ c, tailOKrec r = true)
    {d : Nat} {T : TypeId} : ¬ DeclAt c d T := by
  rintro ⟨h1, _⟩
  have := hc _ (List.getElem?_mem h1)
  simp [tailOKrec] at this

theorem no_hdrAt_of_neutral {c : List Rec} (hc : ∀ r ∈ c, tailOKrec r = true)
    {j : Nat} {T : TypeId} : ¬ HdrAt c j T := by
  rintro ⟨h1, _⟩
  have := hc _ (List.getElem?_mem h1)
  simp [tailOKrec] at this

theorem declAt_append_neutral {out c : List Rec} (hT : tailOKb out = true)
    (hc : ∀ r ∈ c, tailOKrec r = true) {d : Nat} {T : TypeId} :
    DeclAt (out ++ c) d T ↔ DeclAt out d T := by
  rw [declAt_append hT]
  constructor
  · rintro (h | ⟨_, h⟩)
    · exact h
    · exact absurd h (no_declAt_of_neutral hc)
  · exact Or.inl

theorem hdrAt_append_neutral {out c : List Rec} (hT : tailOKb out = true)
    (hc : ∀ r ∈ c, tailOKrec r = true) {j : Nat} {T : TypeId} :
    HdrAt (out ++ c) j T ↔ HdrAt out j T := by
  rw [hdrAt_append hT]
  constructor
  · rintro (h | ⟨_, h⟩)
    · exact h
    · exact absurd h (no_hdrAt_of_neutral hc)
  · exact Or.inl

theorem declared_append_neutral {out c : List Rec} (hT : tailOKb out = true)
    (hc : ∀ r ∈ c, tailOKrec r = true) {T : TypeId} :
    Declared (out ++ c) T ↔ Declared out T := by
  unfold Declared
  exact exists_congr fun d => declAt_append_neutral hT hc

theorem hdrIds_append_neutral {out c : List Rec} (hT : tailOKb out = true)
    (hc : ∀ r ∈ c, tailOKrec r = true) : hdrIds (out ++ c) = hdrIds out := by
  have hnil : hdrIds c = [] := by
    refine hdrIds_eq_nil ?_
    intro r hr he
    have := hc r hr
    rw [he] at this
    simp [tailOKrec] at this
  rw [hdrIds_append hT, hnil, List.append_nil]

/-! ### The records of one class declaration -/

theorem attrDeclRecs_kinds {as : List Attr} :
    ∀ r ∈ attrDeclRecs as,
      r = .hint ∨ (∃ s, r = .attrName s) ∨ ∃ n, r = .dataType (.tg n) := by
  induction as with
  | nil => simp [attrDeclRecs]
  | cons a rest ih =>
    intro r hr
    match a with
    | .nonSerializable => exact ih r hr
    | .primAttr nm tg mt =>
      rcases List.mem_append.mp hr with h | h
      · simp only [List.mem_cons, List.not_mem_nil, or_false] at h
        rcases h with rfl | rfl | rfl
        · exact Or.inl rfl
        · exact Or.inr (Or.inl ⟨_, rfl⟩)
        · exact Or.inr (Or.inr ⟨_, rfl⟩)
      · exact ih r h
    | .ptrAttr nm tg mt =>
      rcases List.mem_append.mp hr with h | h
      · simp only [List.mem_cons, List.not_mem_nil, or_false] at h
        rcases h with rfl | rfl | rfl
        · exact Or.inl rfl
        · exact Or.inr (Or.inl ⟨_, rfl⟩)
        · exact Or.inr (Or.inr ⟨_, rfl⟩)
      · exact ih r h

theorem rttiChunk_no_obj (w : World) (t : TypeId) :
    ∀ r ∈ rttiChunk w t, r ≠ .dataType .object := by
  intro r hr
  unfold rttiChunk at hr
  rcases List.mem_append.mp hr with h | h
  · rcases List.mem_append.mp h with h | h
    · simp only [List.mem_cons, List.not_mem_nil, or_false] at h
      rcases h with rfl | rfl | rfl | rfl | rfl | rfl <;> simp
    · rcases attrDeclRecs_kinds r h with rfl | ⟨s, rfl⟩ | ⟨n, rfl⟩ <;> simp
  · simp only [List.mem_cons, List.not_mem_nil, or_false] at h
    subst h
    simp

theorem tailOKb_rttiChunk (w : World) (t : TypeId) :
    tailOKb (rttiChunk w t) = true := by
  unfold tailOKb rttiChunk
  rw [List.getLast?_append_of_ne_nil _ (by simp)]
  rfl

theorem hdrIds_rttiChunk (w : World) (t : TypeId) : hdrIds (rttiChunk w t) = [] :=
  hdrIds_eq_nil (rttiChunk_no_obj w t)

theorem no_hdrAt_rttiChunk (w : World) (t : TypeId) {j : Nat} {T : TypeId} :
    ¬ HdrAt (rttiChunk w t) j T := by
  rintro ⟨h1, _⟩
  exact absurd rfl (rttiChunk_no_obj w t _ (List.getElem?_mem h1))

theorem declAt_rttiChunk (w : World) (t : TypeId) {d : Nat} {T : TypeId} :
    DeclAt (rttiChunk w t) d T ↔ d = 2 ∧ T = t := by
  constructor
  · rintro ⟨h1, h2⟩
    by_cases hd : d < 6
    · have h1' : (rttiChunk w t)[d]? =
          ([Rec.hint, Rec.hint, Rec.dataType .declare, Rec.typeName t,
            Rec.count (getType w t).attrs.length, Rec.indentUp] : List Rec)[d]? := by
        unfold rttiChunk
        rw [List.append_assoc]
        exact List.getElem?_append_left (by simpa using hd)
      rw [h1'] at h1
      interval_cases d <;> simp_all
      -- the surviving case is d = 2; extract T = t from the second window slot
      · have h2' : (rttiChunk w t)[3]? = some (Rec.typeName t) := by
          unfold rttiChunk
          rw [List.append_assoc]
          rw [List.getElem?_append_left (by simp)]
          rfl
        rw [h2'] at h2
        injection h2 with h2
        injection h2 with h2
        exact h2.symm
    · exfalso
      have hge : 6 ≤ d := by omega
      have h1' : (rttiChunk w t)[d]? =
          getElem? (attrDeclRecs (getType w t).attrs ++ [Rec.indentDown]) (d - 6) := by
        unfold rttiChunk
        rw [List.append_assoc]
        exact List.getElem?_append_right (by simpa using hge)
      rw [h1'] at h1
      have hmem := List.getElem?_mem h1
      rcases List.mem_append.mp hmem with h | h
      · rcases attrDeclRecs_kinds _ h with h' | ⟨s, h'⟩ | ⟨n, h'⟩ <;> simp at h'
      · simp at h
  · rintro ⟨rfl, rfl⟩
    constructor
    · unfold rttiChunk
      rw [List.append_assoc, List.getElem?_append_left (by simp)]
      rfl
    · unfold rttiChunk
      rw [List.append_assoc, List.getElem?_append_left (by simp)]
      rfl

theorem attrDeclRecs_countP (as : List Attr) :
    (attrDeclRecs as).countP isAttrNameRec = as.countP isSerializable := by
  induction as with
  | nil => rfl
  | cons a rest ih =>
    match a with
    | .nonSerializable => simpa [attrDeclRecs, List.countP_cons, isSerializable] using ih
    | .primAttr nm tg mt =>
      simp [attrDeclRecs, List.countP_cons, List.countP_append, isSerializable,
        isAttrNameRec, ih]
    | .ptrAttr nm tg mt =>
      simp [attrDeclRecs, List.countP_cons, List.countP_append, isSerializable,
        isAttrNameRec, ih]

theorem rttiChunk_countP (w : World) (t : TypeId) :
    (rttiChunk w t).countP isAttrNameRec = (getType w t).attrs.countP isSerializable := by
  simp [rttiChunk, List.countP_append, List.countP_cons, isAttrNameRec, attrDeclRecs_countP]

theorem writeClassData_chunk (w : World) (t : TypeId) (o : ObjId) (s : OState)
    (h1 : s.fail = false) (h2 : s.failAfter = none) :
    ∃ c, (writeClassData w t o s).out = s.out ++ c ∧
      c.countP isDataVal = (getType w t).attrs.countP isSerializable := by
  obtain ⟨c, hout, hkind, hcount, h1', h2', hcs, hcq⟩ :=
    writeAttrsData_chunk w o (getType w t).attrs 0
      { s with out := s.out ++ [.indentUp] } h1 h2
  refine ⟨[.indentUp] ++ c ++ [.indentDown], ?_, ?_⟩
  · simp only [writeClassData]
    rw [show emit .indentUp s = { s with out := s.out ++ [.indentUp] } from
      emit_of_ff _ h1 h2]
    rw [emit_of_ff _ h1' h2', hout]
    simp
  · simp [List.countP_append, hcount, isDataVal]

/-- C8: the count written in a class declaration header is the type's
total registered attribute count, including attributes skipped because
they do not cast to `SerializableAttribute`; the attribute entries
actually emitted in the declaration, and the attribute data values
emitted per instance, both number only the serializable attributes, which
is strictly less than the declared count when a non-serializable
attribute exists. -/
theorem C8_declared_count_vs_emitted (w : World) (t : TypeId) (o : ObjId) (s : OState)
    (h1 : s.fail = false) (h2 : s.failAfter = none) :
    ((writeRTTI w t s).out = s.out ++ rttiChunk w t ∧
      (rttiChunk w t)[4]? = some (.count (getType w t).attrs.length) ∧
      (rttiChunk w t).countP isAttrNameRec = (getType w t).attrs.countP isSerializable) ∧
    (∃ c, (writeClassData w t o s).out = s.out ++ c ∧
      c.countP isDataVal = (getType w t).attrs.countP isSerializable) ∧
    ((∃ a ∈ (getType w t).attrs, isSerializable a = false) →
      (getType w t).attrs.countP isSerializable < (getType w t).attrs.length) := by
  refine ⟨⟨?_, rfl, rttiChunk_countP w t⟩, writeClassData_chunk w t o s h1 h2, ?_⟩
  · rw [writeRTTI_eq w t s h1 h2]
  · intro ⟨a, ha, hns⟩
    have hle : (getType w t).attrs.countP isSerializable ≤ (getType w t).attrs.length :=
      List.countP_le_length _
    have hne : (getType w t).attrs.countP isSerializable ≠ (getType w t).attrs.length := by
      intro heq
      have := List.countP_eq_length.mp heq a ha
      rw [hns] at this
      exact Bool.false_ne_true this
    omega

theorem outExtends_refl (s : OState) : OutExtends s s := ⟨[], by simp⟩

theorem outExtends_trans {s1 s2 s3 : OState}
    (h1 : OutExtends s1 s2) (h2 : OutExtends s2 s3) : OutExtends s1 s3 := by
  obtain ⟨c1, hc1⟩ := h1
  obtain ⟨c2, hc2⟩ := h2
  exact ⟨c1 ++ c2, by rw [hc2, hc1, List.append_assoc]⟩

theorem emit_outExtends (r : Rec) (s : OState) : OutExtends s (emit r s) := by
  simp only [emit]
  split
  · exact outExtends_refl s
  · split
    · exact ⟨[r], rfl⟩
    · exact ⟨[], by simp⟩
    · exact ⟨[r], rfl⟩

theorem queueRTTI_outExtends (t : TypeId) (s : OState) : OutExtends s (queueRTTI t s) :=
  ⟨[], by simp⟩

theorem writePointerData_outExtends (mt : TypeId) (p : Option ObjId) (s : OState) :
    OutExtends s (writePointerData mt p s) := by
  match p with
  | none => exact outExtends_trans (emit_outExtends _ _) (emit_outExtends _ _)
  | some q =>
    simp only [writePointerData]
    match lookupId s.identifierMap q with
    | some info => exact outExtends_trans (emit_outExtends _ _) (emit_outExtends _ _)
    | none =>
      have h1 : OutExtends s { s with
          nextIdentifier := s.nextIdentifier + 1
          identifierMap := s.identifierMap ++ [(q, ⟨s.nextIdentifier, mt⟩)]
          objectQueue := s.objectQueue ++ [q] } := ⟨[], by simp⟩
      refine outExtends_trans h1 ?_
      exact outExtends_trans (emit_outExtends _ _) (emit_outExtends _ _)

theorem writeAttrsDecl_outExtends (as : List Attr) :
    ∀ s : OState, OutExtends s (writeAttrsDecl as s) := by
  induction as with
  | nil => intro s; exact outExtends_refl s
  | cons a rest ih =>
    intro s
    match a with
    | .nonSerializable => exact ih s
    | .primAttr nm tg none =>
      exact outExtends_trans
        (outExtends_trans (emit_outExtends _ _)
          (outExtends_trans (emit_outExtends _ _) (emit_outExtends _ _))) (ih _)
    | .primAttr nm tg (some r) =>
      refine outExtends_trans (queueRTTI_outExtends r s) ?_
      exact outExtends_trans
        (outExtends_trans (emit_outExtends _ _)
          (outExtends_trans (emit_outExtends _ _) (emit_outExtends _ _))) (ih _)
    | .ptrAttr nm tg mt =>
      refine outExtends_trans (queueRTTI_outExtends mt s) ?_
      exact outExtends_trans
        (outExtends_trans (emit_outExtends _ _)
          (outExtends_trans (emit_outExtends _ _) (emit_outExtends _ _))) (ih _)

theorem writeRTTI_outExtends (w : World) (t : TypeId) (s : OState) :
    OutExtends s (writeRTTI w t s) := by
  simp only [writeRTTI]
  have a1 := emit_outExtends .hint s
  have a2 := outExtends_trans a1 (emit_outExtends .hint _)
  have a3 := outExtends_trans a2 (emit_outExtends (.dataType .declare) _)
  have a4 := outExtends_trans a3 (emit_outExtends (.typeName t) _)
  have a5 := outExtends_trans a4 (emit_outExtends (.count (getType w t).attrs.length) _)
  have a6 := outExtends_trans a5 (emit_outExtends .indentUp _)
  have a7 := outExtends_trans a6 (writeAttrsDecl_outExtends (getType w t).attrs _)
  exact outExtends_trans a7 (emit_outExtends .indentDown _)

theorem writeAttrsData_outExtends (w : World) (o : ObjId) (as : List Attr) :
    ∀ (i : Nat) (s : OState), OutExtends s (writeAttrsData w o as i s) := by
  induction as with
  | nil => intro i s; exact outExtends_refl s
  | cons a rest ih =>
    intro i s
    match a with
    | .nonSerializable => exact ih (i + 1) s
    | .primAttr nm tg mt =>
      exact outExtends_trans
        (outExtends_trans (emit_outExtends _ _) (emit_outExtends _ _)) (ih _ _)
    | .ptrAttr nm tg mt =>
      exact outExtends_trans (writePointerData_outExtends _ _ _) (ih _ _)

theorem writeClassData_outExtends (w : World) (t : TypeId) (o : ObjId) (s : OState) :
    OutExtends s (writeClassData w t o s) := by
  refine outExtends_trans (emit_outExtends .indentUp _) ?_
  exact outExtends_trans (writeAttrsData_outExtends _ _ _ _ _) (emit_outExtends _ _)

theorem drainClassQueue_outExtends (w : World) :
    ∀ (fuel : Nat) (s : OState), OutExtends s (drainClassQueue w fuel s) := by
  intro fuel
  induction fuel with
  | zero => intro s; exact outExtends_refl s
  | succ n ih =>
    intro s
    rcases hq : s.classQueue with _ | ⟨t, rest⟩
    · simp only [drainClassQueue, hq]
      exact outExtends_refl s
    · simp only [drainClassQueue, hq]
      by_cases hf : s.fail = true
      · rw [if_pos hf]
        exact outExtends_refl s
      · rw [if_neg hf]
        have b1 := writeRTTI_outExtends w t s
        have b2 : OutExtends (writeRTTI w t s)
            { writeRTTI w t s with classQueue := (writeRTTI w t s).classQueue.drop 1 } :=
          ⟨[], by simp⟩
        exact outExtends_trans (outExtends_trans b1 b2) (ih _)

theorem writeObject_outExtends (w : World) (cfuel : Nat) (o : ObjId) (s : OState) :
    OutExtends s (writeObject w cfuel o s) := by
  rcases hlk : lookupId s.identifierMap o with _ | info
  · simp only [writeObject, hlk]
    exact outExtends_refl s
  · simp only [writeObject, hlk]
    have a1 := queueRTTI_outExtends info.rtti s
    have a2 := outExtends_trans a1 (drainClassQueue_outExtends w cfuel _)
    have a3 := outExtends_trans a2 (emit_outExtends .hint _)
    have a4 := outExtends_trans a3 (emit_outExtends .hint _)
    have a5 := outExtends_trans a4 (emit_outExtends (.dataType .object) _)
    have a6 := outExtends_trans a5 (emit_outExtends (.typeName info.rtti) _)
    have a7 := outExtends_trans a6 (emit_outExtends (.ident info.identifier) _)
    exact outExtends_trans a7 (writeClassData_outExtends w info.rtti o _)

theorem writeLoop_outExtends (w : World) (cfuel : Nat) :
    ∀ (fuel : Nat) (s : OState), OutExtends s (writeLoop w cfuel fuel s) := by
  intro fuel
  induction fuel with
  | zero => intro s; exact outExtends_refl s
  | succ n ih =>
    intro s
    rcases hq : s.objectQueue with _ | ⟨o, rest⟩
    · simp only [writeLoop, hq]
      exact outExtends_refl s
    · simp only [writeLoop, hq]
      by_cases hf : s.fail = true
      · rw [if_pos hf]
        exact outExtends_refl s
      · rw [if_neg hf]
        have b1 := writeObject_outExtends w cfuel o s
        have b2 : OutExtends (writeObject w cfuel o s)
            { writeObject w cfuel o s with
              objectQueue := (writeObject w cfuel o s).objectQueue.drop 1 } :=
          ⟨[], by simp⟩
        exact outExtends_trans (outExtends_trans b1 b2) (ih _)

theorem writeLoop_of_fail (w : World) (cfuel fuel : Nat) (s : OState)
    (h : s.fail = true) : writeLoop w cfuel fuel s = s := by
  cases fuel with
  | zero => rfl
  | succ n =>
    simp only [writeLoop]
    match s.objectQueue with
    | [] => rfl
    | o :: rest => simp [h]

/-- C5: `Write` returns true exactly when the stream remained fault-free;
after a fault the object loop stops before dequeuing anything further and
every subsequent low-level write is dropped, while everything written
before the fault is left exactly as emitted — output only ever grows, with
no rollback. -/
theorem C5_fault_handling :
    (∀ (w : World) (cf of root rootT : Nat) (s0 : OState),
      (write w cf of root rootT s0).1 = !(write w cf of root rootT s0).2.fail) ∧
    (∀ (w : World) (cf f : Nat) (s : OState), s.fail = true →
      writeLoop w cf f s = s) ∧
    (∀ (r : Rec) (s : OState), s.fail = true → emit r s = s) ∧
    (∀ (w : World) (cf of root rootT : Nat) (s0 : OState),
      OutExtends s0 (write w cf of root rootT s0).2) := by
  refine ⟨fun _ _ _ _ _ _ => rfl, writeLoop_of_fail, fun r s h => emit_of_fail r h, ?_⟩
  intro w cf of root rootT s0
  simp only [write]
  have h1 : OutExtends s0 { s0 with
      identifierMap := insertNew s0.identifierMap root ⟨s0.nextIdentifier, rootT⟩
      nextIdentifier := s0.nextIdentifier + 1 } := ⟨[], by simp⟩
  refine outExtends_trans h1 ?_
  exact outExtends_trans (writeObject_outExtends _ _ _ _) (writeLoop_outExtends _ _ _ _)

theorem C5_fault_handling_witness :
    (write ⟨[⟨[]⟩], [⟨0, []⟩], []⟩ 1 1 0 0 (initState ⟨[⟨[]⟩], [⟨0, []⟩], []⟩ (some 2))).1 =
      !(write ⟨[⟨[]⟩], [⟨0, []⟩], []⟩ 1 1 0 0
          (initState ⟨[⟨[]⟩], [⟨0, []⟩], []⟩ (some 2))).2.fail ∧
    writeLoop ⟨[⟨[]⟩], [⟨0, []⟩], []⟩ 1 1
        { initState ⟨[⟨[]⟩], [⟨0, []⟩], []⟩ none with fail := true, objectQueue := [0] } =
      { initState ⟨[⟨[]⟩], [⟨0, []⟩], []⟩ none with fail := true, objectQueue := [0] } :=
  ⟨C5_fault_handling.1 ⟨[⟨[]⟩], [⟨0, []⟩], []⟩ 1 1 0 0
      (initState ⟨[⟨[]⟩], [⟨0, []⟩], []⟩ (some 2)),
    C5_fault_handling.2.1 ⟨[⟨[]⟩], [⟨0, []⟩], []⟩ 1 1
      { initState ⟨[⟨[]⟩], [⟨0, []⟩], []⟩ none with fail := true, objectQueue := [0] } rfl⟩

/-! ### Extracting facts from world well-formedness -/

theorem getObj_mem {w : World} {o : ObjId} (h : o < w.heap.length) :
    getObj w o ∈ w.heap := by
  unfold getObj
  rw [List.getD_eq_getElem _ _ h]
  exact List.getElem_mem h

theorem getType_mem {w : World} {t : TypeId} (h : t < w.types.length) :
    getType w t ∈ w.types := by
  unfold getType
  rw [List.getD_eq_getElem _ _ h]
  exact List.getElem_mem h

theorem wf_heap {w : World} (hwf : wfB w = true) {o : ObjId} (ho : o < w.heap.length) :
    wfObjB w (getObj w o) = true := by
  unfold wfB at hwf
  rw [Bool.and_eq_true] at hwf
  exact List.all_eq_true.mp hwf.2 _ (getObj_mem ho)

theorem wf_attr {w : World} (hwf : wfB w = true) {td : TypeDesc} (htd : td ∈ w.types)
    {a : Attr} (ha : a ∈ td.attrs) : wfAttrB w a = true := by
  unfold wfB at hwf
  rw [Bool.and_eq_true] at hwf
  exact List.all_eq_true.mp (List.all_eq_true.mp hwf.1 td htd) a ha

theorem wf_typeOf_lt {w : World} (hwf : wfB w = true) {o : ObjId}
    (ho : o < w.heap.length) : (getObj w o).type < w.types.length := by
  have h := wf_heap hwf ho
  unfold wfObjB at h
  rw [Bool.and_eq_true] at h
  exact of_decide_eq_true h.1

theorem wf_ptrField {w : World} (hwf : wfB w = true) {o : ObjId}
    (ho : o < w.heap.length) {j : Nat} {nm : String} {tg : Nat} {mt : TypeId} {p : ObjId}
    (hj : ((getType w (getObj w o).type).attrs)[j]? = some (.ptrAttr nm tg mt))
    (hp : (fieldAt (getObj w o) j).toPtr = some p) :
    p < w.heap.length ∧ (getObj w p).type = mt := by
  have hobj := wf_heap hwf ho
  unfold wfObjB at hobj
  rw [Bool.and_eq_true] at hobj
  have hall := List.all_eq_true.mp hobj.2 (j, .ptrAttr nm tg mt)
    (List.mem_enum_iff_getElem?.mpr hj)
  simp only [hp] at hall
  rw [Bool.and_eq_true] at hall
  exact ⟨of_decide_eq_true hall.1, of_decide_eq_true hall.2⟩

theorem succsOf_mem {w : World} {o p : ObjId} :
    p ∈ succsOf w o ↔ ∃ j nm tg mt,
      ((getType w (getObj w o).type).attrs)[j]? = some (.ptrAttr nm tg mt) ∧
      (fieldAt (getObj w o) j).toPtr = some p := by
  unfold succsOf
  rw [List.mem_filterMap]
  constructor
  · rintro ⟨⟨j, a⟩, hmem, hf⟩
    match a with
    | .ptrAttr nm tg mt =>
      exact ⟨j, nm, tg, mt, List.mem_enum_iff_getElem?.mp hmem, by simpa using hf⟩
    | .nonSerializable => simp at hf
    | .primAttr nm tg mt => simp at hf
  · rintro ⟨j, nm, tg, mt, hj, hp⟩
    exact ⟨(j, .ptrAttr nm tg mt), List.mem_enum_iff_getElem?.mpr hj, by simpa using hp⟩

theorem ptrFieldsOK_full {w : World} (hwf : wfB w = true) {o : ObjId}
    (ho : o < w.heap.length) : PtrFieldsOK w o (getType w (getObj w o).type).attrs 0 := by
  intro j nm tg mt p hj hp
  rw [Nat.zero_add] at hp
  obtain ⟨h1, h2⟩ := wf_ptrField hwf ho hj hp
  exact ⟨h1, h2, succsOf_mem.mpr ⟨j, nm, tg, mt, hj, hp⟩⟩

theorem ptrFieldsOK_cons {w : World} {o : ObjId} {a : Attr} {as : List Attr} {i : Nat}
    (h : PtrFieldsOK w o (a :: as) i) : PtrFieldsOK w o as (i + 1) := by
  intro j nm tg mt p hj hp
  have hj' : (a :: as)[j + 1]? = some (.ptrAttr nm tg mt) := by simpa using hj
  have hp' : (fieldAt (getObj w o) (i + (j + 1))).toPtr = some p := by
    have e : i + (j + 1) = i + 1 + j := by omega
    rw [e]
    exact hp
  exact h (j + 1) nm tg mt p hj' hp'

theorem memberTypesOf_lt {w : World} (hwf : wfB w = true) {T : TypeId}
    (hT : T < w.types.length) : ∀ m ∈ memberTypesOf w T, m < w.types.length := by
  intro m hm
  unfold memberTypesOf memsOfAttrs at hm
  rw [List.mem_filterMap] at hm
  obtain ⟨a, ha, hfa⟩ := hm
  have hwa := wf_attr hwf (getType_mem hT) ha
  match a with
  | .nonSerializable => simp at hfa
  | .primAttr nm tg none => simp at hfa
  | .primAttr nm tg (some r) =>
    simp only [Option.some.injEq] at hfa
    subst hfa
    exact of_decide_eq_true hwa
  | .ptrAttr nm tg mt =>
    simp only [Option.some.injEq] at hfa
    subst hfa
    exact of_decide_eq_true hwa

/-! ### More lookup lemmas -/

theorem lookupId_of_mem_nodup {m : List (ObjId × ObjectInfo)} {k : ObjId} {v : ObjectInfo}
    (h : (k, v) ∈ m) (hnd : (m.map Prod.fst).Nodup) : lookupId m k = some v := by
  induction m with
  | nil => simp at h
  | cons e rest ih =>
    obtain ⟨k0, v0⟩ := e
    rcases List.mem_cons.mp h with he | he
    · rw [Prod.mk.injEq] at he
      obtain ⟨h1, h2⟩ := he
      subst h1
      subst h2
      simp [lookupId]
    · by_cases hk : k0 = k
      · subst hk
        exfalso
        rw [List.map_cons, List.nodup_cons] at hnd
        exact hnd.1 (List.mem_map.mpr ⟨(k0, v), he, rfl⟩)
      · rw [List.map_cons, List.nodup_cons] at hnd
        simp only [lookupId, hk, if_false]
        exact ih he hnd.2

theorem head?_lookupId {m : List (ObjId × ObjectInfo)} {k : ObjId} {v : ObjectInfo}
    (h : m.head? = some (k, v)) : lookupId m k = some v := by
  cases m with
  | nil => simp at h
  | cons e rest =>
    simp only [List.head?_cons, Option.some.injEq] at h
    subst h
    simp [lookupId]

/-! ### Preservation of the session invariant -/

theorem queueRTTI_inv {w : World} {root : ObjId} {rootT : TypeId} {s : OState}
    (hI : Inv w root rootT s) {t : TypeId} (ht : t < w.types.length) :
    Inv w root rootT (queueRTTI t s) ∧ t ∈ (queueRTTI t s).classSet ∧
    s.classSet ⊆ (queueRTTI t s).classSet ∧
    (∃ new, (queueRTTI t s).classQueue = s.classQueue ++ new ∧
      ∀ x ∈ new, x ∉ s.classSet) ∧
    classMeasure w (queueRTTI t s) = classMeasure w s := by
  by_cases hm : t ∈ s.classSet
  · rw [queueRTTI_of_mem hm]
    exact ⟨hI, hm, fun x h => h, ⟨[], by simp⟩, rfl⟩
  · rw [queueRTTI_of_not_mem hm]
    have htq : t ∉ s.classQueue := fun hq => hm (hI.cqSet t hq)
    refine ⟨⟨hI.ffa, hI.ff, hI.tail, hI.next, hI.ids, hI.keysNd, hI.qsub, hI.qnd,
      hI.sound, hI.headRoot, ?_, ?_, hI.hdrDecl, ?_, ?_, ?_, ?_, hI.declUniq,
      hI.primUndecl, ?_, ?_, ?_⟩, ?_, ?_, ?_, ?_⟩
    · intro T hT
      rcases List.mem_cons.mp hT with rfl | hT
      · exact Or.inr (Or.inl (List.mem_append_right _ (by simp)))
      · rcases hI.setDecl T hT with h | h | h
        · exact Or.inl h
        · exact Or.inr (Or.inl (List.mem_append_left _ h))
        · exact Or.inr (Or.inr h)
    · intro T hT
      exact List.mem_cons_of_mem _ (hI.declSet T hT)
    · intro x hx
      rcases List.mem_append.mp hx with hx | hx
      · exact List.mem_cons_of_mem _ (hI.cqSet x hx)
      · simp only [List.mem_singleton] at hx
        subst hx
        exact List.mem_cons_self _ _
    · intro x hx
      exact List.mem_cons_of_mem _ (hI.primsSet x hx)
    · rw [List.nodup_append]
      exact ⟨hI.cqNd, List.nodup_singleton t, by
        intro x hx hx'
        simp only [List.mem_singleton] at hx'
        subst hx'
        exact htq hx⟩
    · intro T hT
      rcases List.mem_append.mp hT with hT | hT
      · exact hI.cqUndecl T hT
      · simp only [List.mem_singleton] at hT
        subst hT
        exact fun hd => hm (hI.declSet T hd)
    · intro x hx
      rcases List.mem_append.mp hx with hx | hx
      · exact hI.cqValid x hx
      · simp only [List.mem_singleton] at hx
        subst hx
        exact ht
    · intro x hx
      rcases List.mem_append.mp hx with hx | hx
      · exact hI.cqPrim x hx
      · simp only [List.mem_singleton] at hx
        subst hx
        exact fun hp => hm (hI.primsSet x hp)
    · intro T hT
      intro m hmem
      exact List.mem_cons_of_mem _ (hI.declMember T hT m hmem)
    · exact List.mem_cons_self _ _
    · exact fun x h => List.mem_cons_of_mem _ h
    · exact ⟨[t], rfl, by
        intro x hx
        simp only [List.mem_singleton] at hx
        subst hx
        exact hm⟩
    · unfold classMeasure
      simp only [List.length_append, List.length_singleton]
      have hfil : ((List.range w.types.length).filter (fun x => x ∉ t :: s.classSet)).length + 1
          = ((List.range w.types.length).filter (fun x => x ∉ s.classSet)).length := by
        have hsplit : (List.range w.types.length).filter (fun x => x ∉ t :: s.classSet)
            = ((List.range w.types.length).filter (fun x => x ∉ s.classSet)).filter
                (fun x => x ≠ t) := by
          rw [List.filter_filter]
          refine List.filter_congr ?_
          intro x _
          simp only [List.mem_cons, decide_not, Bool.and_comm]
          rcases Decidable.em (x = t) with h | h <;> rcases Decidable.em (x ∈ s.classSet) with
            h' | h' <;> simp [h, h']
        have hmemf : t ∈ (List.range w.types.length).filter (fun x => x ∉ s.classSet) := by
          rw [List.mem_filter]
          exact ⟨List.mem_range.mpr ht, by simpa using hm⟩
        have hnd : ((List.range w.types.length).filter (fun x => x ∉ s.classSet)).Nodup :=
          (List.nodup_range _).filter _
        rw [hsplit]
        have herase := hnd.erase_eq_filter t
        have hfe : ((List.range w.types.length).filter (fun x => x ∉ s.classSet)).filter
              (fun x => x ≠ t)
            = ((List.range w.types.length).filter (fun x => x ∉ s.classSet)).erase t := by
          rw [herase]
          refine (List.filter_congr ?_).symm
          intro x _
          rcases Decidable.em (x = t) with h | h <;> simp [h]
        rw [hfe, List.length_erase_of_mem hmemf]
        have : 0 < ((List.range w.types.length).filter (fun x => x ∉ s.classSet)).length :=
          List.length_pos.mpr (by
            intro he
            rw [he] at hmemf
            exact List.not_mem_nil t hmemf)
        omega
      omega

theorem inv_append_neutral {w : World} {root : ObjId} {rootT : TypeId} {s : OState}
    (hI : Inv w root rootT s) {c : List Rec} (hc : ∀ r ∈ c, tailOKrec r = true) :
    Inv w root rootT { s with out := s.out ++ c } := by
  have hT := hI.tail
  refine ⟨hI.ffa, hI.ff, tailOKb_append_neutral hT hc, hI.next, hI.ids, hI.keysNd,
    hI.qsub, hI.qnd, hI.sound, hI.headRoot, ?_, ?_, ?_, hI.cqSet, hI.primsSet,
    hI.cqNd, ?_, ?_, ?_, hI.cqValid, hI.cqPrim, ?_⟩
  · intro T hT'
    rcases hI.setDecl T hT' with h | h | h
    · exact Or.inl h
    · exact Or.inr (Or.inl h)
    · exact Or.inr (Or.inr ((declared_append_neutral hT hc).mpr h))
  · intro T hT'
    exact hI.declSet T ((declared_append_neutral hT hc).mp hT')
  · intro j T hj hp
    obtain ⟨d, hd, hdecl⟩ := hI.hdrDecl j T ((hdrAt_append_neutral hT hc).mp hj) hp
    exact ⟨d, hd, (declAt_append_neutral hT hc).mpr hdecl⟩
  · intro T hT'
    intro hd
    exact hI.cqUndecl T hT' ((declared_append_neutral hT hc).mp hd)
  · intro T d d' h1 h2
    exact hI.declUniq T d d' ((declAt_append_neutral hT hc).mp h1)
      ((declAt_append_neutral hT hc).mp h2)
  · intro T hT'
    intro hd
    exact hI.primUndecl T hT' ((declared_append_neutral hT hc).mp hd)
  · intro T hT' m hm
    exact hI.declMember T ((declared_append_neutral hT hc).mp hT') m hm

theorem neutral_hint_ident (x : Identifier) :
    ∀ r ∈ [Rec.hint, Rec.ident x], tailOKrec r = true := by
  intro r hr
  simp only [List.mem_cons, List.not_mem_nil, or_false] at hr
  rcases hr with rfl | rfl <;> rfl

theorem writePointerData_inv {w : World} {root : ObjId} {rootT : TypeId} {s : OState}
    (hI : Inv w root rootT s) (mt : TypeId) (p? : Option ObjId)
    (hctx : ∀ p, p? = some p → lookupId s.identifierMap p = none →
      p < w.heap.length ∧ (getObj w p).type = mt ∧ Reaches w root p) :
    Inv w root rootT (writePointerData mt p? s) ∧
    (∃ m, (writePointerData mt p? s).identifierMap = s.identifierMap ++ m ∧
      (writePointerData mt p? s).objectQueue = s.objectQueue ++ m.map Prod.fst) ∧
    (writePointerData mt p? s).classSet = s.classSet ∧
    (writePointerData mt p? s).classQueue = s.classQueue ∧
    hdrIds (writePointerData mt p? s).out = hdrIds s.out ∧
    (∀ p, p? = some p → p ∈ (writePointerData mt p? s).identifierMap.map Prod.fst) := by
  match p? with
  | none =>
    rw [writePointerData_none_eq mt hI.ff hI.ffa]
    refine ⟨inv_append_neutral hI (neutral_hint_ident _), ⟨[], by simp⟩, rfl, rfl,
      hdrIds_append_neutral hI.tail (neutral_hint_ident _), ?_⟩
    intro p hp
    exact absurd hp (by simp)
  | some q =>
    match hlk : lookupId s.identifierMap q with
    | some info =>
      rw [writePointerData_found_eq mt hI.ff hI.ffa hlk]
      refine ⟨inv_append_neutral hI (neutral_hint_ident _), ⟨[], by simp⟩, rfl, rfl,
        hdrIds_append_neutral hI.tail (neutral_hint_ident _), ?_⟩
      intro p hp
      injection hp with hp
      subst hp
      rw [← lookupId_isSome_iff]
      simp [hlk]
    | none =>
      have hq : q ∉ s.identifierMap.map Prod.fst := lookupId_eq_none_iff.mp hlk
      obtain ⟨hqH, hqT, hqR⟩ := hctx q rfl hlk
      have hMid : Inv w root rootT
          { s with
            nextIdentifier := s.nextIdentifier + 1
            identifierMap := s.identifierMap ++ [(q, ⟨s.nextIdentifier, mt⟩)]
            objectQueue := s.objectQueue ++ [q] } := by
        refine ⟨hI.ffa, hI.ff, hI.tail, ?_, ?_, ?_, ?_, ?_, ?_, ?_, hI.setDecl,
          hI.declSet, hI.hdrDecl, hI.cqSet, hI.primsSet, hI.cqNd, hI.cqUndecl,
          hI.declUniq, hI.primUndecl, hI.cqValid, hI.cqPrim, hI.declMember⟩
        · simp only [List.length_append, List.length_singleton]
          rw [hI.next]
        · simp only [List.map_append, List.length_append, List.length_singleton]
          rw [hI.ids, hI.next]
          rw [List.range'_concat]
          simp [Nat.add_comm]
        · simp only [List.map_append]
          rw [List.nodup_append]
          refine ⟨hI.keysNd, by simp, ?_⟩
          intro x hx hx'
          simp only [List.map_singleton, List.mem_singleton] at hx'
          subst hx'
          exact hq hx
        · intro o ho
          simp only [List.map_append]
          rcases List.mem_append.mp ho with ho | ho
          · exact List.mem_append_left _ (hI.qsub o ho)
          · simp only [List.mem_singleton] at ho
            subst ho
            simp
        · rw [List.nodup_append]
          refine ⟨hI.qnd, List.nodup_singleton q, ?_⟩
          intro x hx hx'
          simp only [List.mem_singleton] at hx'
          subst hx'
          exact hq (hI.qsub x hx)
        · intro e he
          rcases List.mem_append.mp he with he | he
          · exact hI.sound e he
          · simp only [List.mem_singleton] at he
            subst he
            exact ⟨hqH, hqT.symm, hqR⟩
        · show (s.identifierMap ++ [(q, (⟨s.nextIdentifier, mt⟩ : ObjectInfo))]).head?
              = some (root, (⟨1, rootT⟩ : ObjectInfo))
          have hh := hI.headRoot
          rcases hmap : s.identifierMap with _ | ⟨e0, m0⟩
          · rw [hmap] at hh
            simp at hh
          · rw [hmap] at hh
            simpa using hh
      refine ⟨?_, ⟨[(q, ⟨s.nextIdentifier, mt⟩)], ?_, ?_⟩, ?_, ?_, ?_, ?_⟩
      · rw [writePointerData_fresh_eq mt hI.ff hI.ffa hlk]
        exact inv_append_neutral hMid (neutral_hint_ident _)
      · rw [writePointerData_fresh_eq mt hI.ff hI.ffa hlk]
      · rw [writePointerData_fresh_eq mt hI.ff hI.ffa hlk]
        simp
      · rw [writePointerData_fresh_eq mt hI.ff hI.ffa hlk]
      · rw [writePointerData_fresh_eq mt hI.ff hI.ffa hlk]
      · rw [writePointerData_fresh_eq mt hI.ff hI.ffa hlk]
        exact hdrIds_append_neutral hI.tail (neutral_hint_ident _)
      · intro p hp
        injection hp with hp
        subst hp
        rw [writePointerData_fresh_eq mt hI.ff hI.ffa hlk]
        simp

theorem neutral_hint_primData (v : Nat) :
    ∀ r ∈ [Rec.hint, Rec.primData v], tailOKrec r = true := by
  intro r hr
  simp only [List.mem_cons, List.not_mem_nil, or_false] at hr
  rcases hr with rfl | rfl <;> rfl

theorem writeAttrsData_inv {w : World} {root : ObjId} {rootT : TypeId} {o : ObjId}
    (hro : Reaches w root o) :
    ∀ (as : List Attr) (i : Nat) (s : OState), Inv w root rootT s →
      PtrFieldsOK w o as i →
      Inv w root rootT (writeAttrsData w o as i s) ∧
      (∃ m, (writeAttrsData w o as i s).identifierMap = s.identifierMap ++ m ∧
        (writeAttrsData w o as i s).objectQueue = s.objectQueue ++ m.map Prod.fst) ∧
      (writeAttrsData w o as i s).classSet = s.classSet ∧
      (writeAttrsData w o as i s).classQueue = s.classQueue ∧
      hdrIds (writeAttrsData w o as i s).out = hdrIds s.out ∧
      (∀ j nm tg mt p, as[j]? = some (.ptrAttr nm tg mt) →
        (fieldAt (getObj w o) (i + j)).toPtr = some p →
        p ∈ (writeAttrsData w o as i s).identifierMap.map Prod.fst) := by
  intro as
  induction as with
  | nil =>
    intro i s hI hPF
    refine ⟨hI, ⟨[], by simp [writeAttrsData]⟩, rfl, rfl, rfl, ?_⟩
    intro j nm tg mt p hj hp
    simp at hj
  | cons a rest ih =>
    intro i s hI hPF
    match a with
    | .nonSerializable =>
      have hred : writeAttrsData w o (Attr.nonSerializable :: rest) i s =
          writeAttrsData w o rest (i + 1) s := rfl
      obtain ⟨hI2, ⟨m, hm, hq⟩, hcs, hcq, hh, hreg⟩ :=
        ih (i + 1) s hI (ptrFieldsOK_cons hPF)
      rw [hred]
      refine ⟨hI2, ⟨m, hm, hq⟩, hcs, hcq, hh, ?_⟩
      intro j nm tg mt p hj hp
      match j with
      | 0 => simp at hj
      | jj + 1 =>
        refine hreg jj nm tg mt p (by simpa using hj) ?_
        have e : i + (jj + 1) = i + 1 + jj := by omega
        rw [← e]
        exact hp
    | .primAttr nm0 tg0 mt0 =>
      have hs1 : emit (.primData (fieldAt (getObj w o) i).toPrim) (emit .hint s) =
          { s with out := s.out ++ [.hint, .primData (fieldAt (getObj w o) i).toPrim] } := by
        simp [emit, hI.ff, hI.ffa]
      have hI1 : Inv w root rootT
          { s with out := s.out ++ [.hint, .primData (fieldAt (getObj w o) i).toPrim] } :=
        inv_append_neutral hI (neutral_hint_primData _)
      obtain ⟨hI2, ⟨m, hm, hq⟩, hcs, hcq, hh, hreg⟩ :=
        ih (i + 1) { s with out := s.out ++ [.hint, .primData (fieldAt (getObj w o) i).toPrim] }
          hI1 (ptrFieldsOK_cons hPF)
      have hred : writeAttrsData w o (Attr.primAttr nm0 tg0 mt0 :: rest) i s =
          writeAttrsData w o rest (i + 1)
            (emit (.primData (fieldAt (getObj w o) i).toPrim) (emit .hint s)) := rfl
      rw [hred, hs1]
      refine ⟨hI2, ⟨m, by simpa using hm, by simpa using hq⟩,
        by simpa using hcs, by simpa using hcq, ?_, ?_⟩
      · rw [hh]
        exact hdrIds_append_neutral hI.tail
          (neutral_hint_primData (fieldAt (getObj w o) i).toPrim)
      · intro j nm tg mt p hj hp
        match j with
        | 0 => simp at hj
        | jj + 1 =>
          refine hreg jj nm tg mt p (by simpa using hj) ?_
          have e : i + (jj + 1) = i + 1 + jj := by omega
          rw [← e]
          exact hp
    | .ptrAttr nm0 tg0 mt0 =>
      have hctx : ∀ p, (fieldAt (getObj w o) i).toPtr = some p →
          lookupId s.identifierMap p = none →
          p < w.heap.length ∧ (getObj w p).type = mt0 ∧ Reaches w root p := by
        intro p hp _
        have hp' : (fieldAt (getObj w o) (i + 0)).toPtr = some p := by
          rw [Nat.add_zero]
          exact hp
        obtain ⟨h1, h2, h3⟩ := hPF 0 nm0 tg0 mt0 p (by simp) hp'
        exact ⟨h1, h2, Reaches.step hro h3⟩
      obtain ⟨hI1, ⟨m1, hm1, hq1⟩, hcs1, hcq1, hh1, hreg1⟩ :=
        writePointerData_inv hI mt0 (fieldAt (getObj w o) i).toPtr hctx
      obtain ⟨hI2, ⟨m2, hm2, hq2⟩, hcs2, hcq2, hh2, hreg2⟩ :=
        ih (i + 1) _ hI1 (ptrFieldsOK_cons hPF)
      have hred : writeAttrsData w o (Attr.ptrAttr nm0 tg0 mt0 :: rest) i s =
          writeAttrsData w o rest (i + 1)
            (writePointerData mt0 (fieldAt (getObj w o) i).toPtr s) := rfl
      rw [hred]
      refine ⟨hI2, ⟨m1 ++ m2, ?_, ?_⟩, ?_, ?_, ?_, ?_⟩
      · rw [hm2]
        rw [hm1]
        rw [List.append_assoc]
      · rw [hq2]
        rw [hq1]
        simp [List.append_assoc]
      · rw [hcs2]
        exact hcs1
      · rw [hcq2]
        exact hcq1
      · rw [hh2]
        exact hh1
      · intro j nm tg mt p hj hp
        match j with
        | 0 =>
          have hp' : (fieldAt (getObj w o) i).toPtr = some p := by
            rw [Nat.add_zero] at hp
            exact hp
          have hmem := hreg1 p hp'
          rw [hm2]
          simp only [List.map_append]
          exact List.mem_append_left _ hmem
        | jj + 1 =>
          refine hreg2 jj nm tg mt p (by simpa using hj) ?_
          have e : i + (jj + 1) = i + 1 + jj := by omega
          rw [← e]
          exact hp

theorem queueAll_inv {w : World} {root : ObjId} {rootT : TypeId} :
    ∀ (X : List TypeId) (s : OState), Inv w root rootT s →
      (∀ x ∈ X, x < w.types.length) →
      Inv w root rootT (queueAll X s) ∧
      s.classSet ⊆ (queueAll X s).classSet ∧
      (∀ x ∈ X, x ∈ (queueAll X s).classSet) ∧
      (∃ new, (queueAll X s).classQueue = s.classQueue ++ new ∧
        ∀ x ∈ new, x ∉ s.classSet) ∧
      classMeasure w (queueAll X s) = classMeasure w s := by
  intro X
  induction X with
  | nil =>
    intro s hI _
    exact ⟨hI, fun x h => h, by simp, ⟨[], by simp [queueAll]⟩, rfl⟩
  | cons t rest ih =>
    intro s hI hX
    obtain ⟨hI1, ht1, hsub1, ⟨new1, hq1, hnew1⟩, hmeas1⟩ :=
      queueRTTI_inv hI (hX t (List.mem_cons_self _ _))
    obtain ⟨hI2, hsub2, hall2, ⟨new2, hq2, hnew2⟩, hmeas2⟩ :=
      ih (queueRTTI t s) hI1 (fun x hx => hX x (List.mem_cons_of_mem _ hx))
    refine ⟨hI2, fun x h => hsub2 (hsub1 h), ?_, ⟨new1 ++ new2, ?_, ?_⟩, ?_⟩
    · intro x hx
      rcases List.mem_cons.mp hx with rfl | hx
      · exact hsub2 ht1
      · exact hall2 x hx
    · rw [show queueAll (t :: rest) s = queueAll rest (queueRTTI t s) from rfl]
      rw [hq2, hq1, List.append_assoc]
    · intro x hx
      rcases List.mem_append.mp hx with hx | hx
      · exact hnew1 x hx
      · intro hmem
        exact hnew2 x hx (hsub1 hmem)
    · rw [show queueAll (t :: rest) s = queueAll rest (queueRTTI t s) from rfl]
      rw [hmeas2, hmeas1]

theorem drain_step_inv {w : World} {root : ObjId} {rootT : TypeId}
    (hwf : wfB w = true) {s : OState} {t : TypeId} {rest : List TypeId}
    (hI : Inv w root rootT s) (hq : s.classQueue = t :: rest) :
    Inv w root rootT
      { writeRTTI w t s with classQueue := (writeRTTI w t s).classQueue.drop 1 } ∧
    (writeRTTI w t s).identifierMap = s.identifierMap ∧
    (writeRTTI w t s).objectQueue = s.objectQueue ∧
    (writeRTTI w t s).nextIdentifier = s.nextIdentifier ∧
    hdrIds (writeRTTI w t s).out = hdrIds s.out ∧
    s.classSet ⊆ (writeRTTI w t s).classSet ∧
    (∀ T, Declared s.out T → Declared (writeRTTI w t s).out T) ∧
    classMeasure w
      { writeRTTI w t s with classQueue := (writeRTTI w t s).classQueue.drop 1 } + 1
      = classMeasure w s := by
  have htq : t ∈ s.classQueue := by rw [hq]; exact List.mem_cons_self _ _
  have ht : t < w.types.length := hI.cqValid t htq
  have htp : t ∉ w.prims := hI.cqPrim t htq
  have htnd : t ∉ rest := by
    have := hI.cqNd
    rw [hq, List.nodup_cons] at this
    exact this.1
  have htundecl : ¬ Declared s.out t := hI.cqUndecl t htq
  have htset : t ∈ s.classSet := hI.cqSet t htq
  have hmem := memberTypesOf_lt hwf ht
  obtain ⟨hIA, hsubA, hallA, ⟨new, hqA, hnewA⟩, hmeasA⟩ :=
    queueAll_inv (memberTypesOf w t) s hI hmem
  have heq := writeRTTI_eq w t s hI.ff hI.ffa
  have houtA : (queueAll (memberTypesOf w t) s).out = s.out := queueAll_out _ _
  have hTo := hI.tail
  -- facts about the new declaration
  have hdeclt : Declared (s.out ++ rttiChunk w t) t :=
    (declared_append hTo).mpr (Or.inr ⟨2, (declAt_rttiChunk w t).mpr ⟨rfl, rfl⟩⟩)
  have hdecl_iff : ∀ T, Declared (s.out ++ rttiChunk w t) T ↔ (Declared s.out T ∨ T = t) := by
    intro T
    rw [declared_append hTo]
    constructor
    · rintro (h | ⟨d, hd⟩)
      · exact Or.inl h
      · exact Or.inr ((declAt_rttiChunk w t).mp hd).2
    · rintro (h | hTt)
      · exact Or.inl h
      · exact Or.inr ⟨2, (declAt_rttiChunk w t).mpr ⟨rfl, hTt⟩⟩
  have hq1 : (writeRTTI w t s).classQueue = t :: (rest ++ new) := by
    rw [heq]
    show (queueAll (memberTypesOf w t) s).classQueue = t :: (rest ++ new)
    rw [hqA, hq]
    simp
  have hqdrop : (writeRTTI w t s).classQueue.drop 1 = rest ++ new := by
    rw [hq1]
    rfl
  have hout1 : (writeRTTI w t s).out = s.out ++ rttiChunk w t := by
    rw [heq]
  have hsetA : (writeRTTI w t s).classSet = (queueAll (memberTypesOf w t) s).classSet := by
    rw [heq]
  -- extract the queueAll invariant fields, rewritten to talk about s.out
  have hds := hIA.declSet
  rw [houtA] at hds
  have hsd := hIA.setDecl
  rw [houtA] at hsd
  have hhd := hIA.hdrDecl
  rw [houtA] at hhd
  have hcu := hIA.cqUndecl
  rw [houtA] at hcu
  have hdu := hIA.declUniq
  rw [houtA] at hdu
  have hpu := hIA.primUndecl
  rw [houtA] at hpu
  have hdm := hIA.declMember
  rw [houtA] at hdm
  refine ⟨?_, by rw [heq]; exact queueAll_identifierMap _ _,
    by rw [heq]; exact queueAll_objectQueue _ _,
    by rw [heq]; exact queueAll_nextIdentifier _ _, ?_, ?_, ?_, ?_⟩
  · refine ⟨by rw [heq]; exact hIA.ffa, by rw [heq]; exact hIA.ff, ?_, ?_, ?_, ?_, ?_, ?_,
      ?_, ?_, ?_, ?_, ?_, ?_, ?_, ?_, ?_, ?_, ?_, ?_, ?_, ?_⟩
    · show tailOKb (writeRTTI w t s).out = true
      rw [hout1]
      rw [tailOKb_append (by simp [rttiChunk])]
      exact tailOKb_rttiChunk w t
    · show (writeRTTI w t s).nextIdentifier = (writeRTTI w t s).identifierMap.length + 1
      rw [heq]
      exact hIA.next
    · show (writeRTTI w t s).identifierMap.map _ = _
      rw [heq]
      exact hIA.ids
    · show ((writeRTTI w t s).identifierMap.map Prod.fst).Nodup
      rw [heq]
      exact hIA.keysNd
    · show ∀ o ∈ (writeRTTI w t s).objectQueue,
        o ∈ (writeRTTI w t s).identifierMap.map Prod.fst
      rw [heq]
      exact hIA.qsub
    · show (writeRTTI w t s).objectQueue.Nodup
      rw [heq]
      exact hIA.qnd
    · show ∀ e ∈ (writeRTTI w t s).identifierMap, _
      rw [heq]
      exact hIA.sound
    · show (writeRTTI w t s).identifierMap.head? = _
      rw [heq]
      exact hIA.headRoot
    · -- setDecl
      show ∀ T ∈ (writeRTTI w t s).classSet, T ∈ w.prims ∨
        T ∈ (writeRTTI w t s).classQueue.drop 1 ∨ Declared (writeRTTI w t s).out T
      intro T hT
      rw [hsetA] at hT
      rw [hqdrop, hout1]
      rcases hsd T hT with h | h | h
      · exact Or.inl h
      · rw [hqA, hq] at h
        rcases List.mem_append.mp h with h | h
        · rcases List.mem_cons.mp h with rfl | h
          · exact Or.inr (Or.inr hdeclt)
          · exact Or.inr (Or.inl (List.mem_append_left _ h))
        · exact Or.inr (Or.inl (List.mem_append_right _ h))
      · exact Or.inr (Or.inr ((hdecl_iff T).mpr (Or.inl h)))
    · -- declSet
      show ∀ T, Declared (writeRTTI w t s).out T → T ∈ (writeRTTI w t s).classSet
      intro T hT
      rw [hout1] at hT
      rw [hsetA]
      rcases (hdecl_iff T).mp hT with h | rfl
      · exact hds T h
      · exact hsubA htset
    · -- hdrDecl
      show ∀ j T, HdrAt (writeRTTI w t s).out j T → T ∉ w.prims →
        ∃ d, d < j ∧ DeclAt (writeRTTI w t s).out d T
      intro j T hj hTp
      rw [hout1] at hj ⊢
      rcases (hdrAt_append hTo).mp hj with h | ⟨_, h⟩
      · obtain ⟨d, hd, hdecl⟩ := hhd j T h hTp
        exact ⟨d, hd, (declAt_append hTo).mpr (Or.inl hdecl)⟩
      · exact absurd h (no_hdrAt_rttiChunk w t)
    · -- cqSet
      show ∀ x ∈ (writeRTTI w t s).classQueue.drop 1, x ∈ (writeRTTI w t s).classSet
      intro x hx
      rw [hqdrop] at hx
      rw [hsetA]
      refine hIA.cqSet x ?_
      rw [hqA, hq]
      rcases List.mem_append.mp hx with h | h
      · exact List.mem_append_left _ (List.mem_cons_of_mem _ h)
      · exact List.mem_append_right _ h
    · -- primsSet
      show ∀ x ∈ w.prims, x ∈ (writeRTTI w t s).classSet
      rw [hsetA]
      exact hIA.primsSet
    · -- cqNd
      show ((writeRTTI w t s).classQueue.drop 1).Nodup
      rw [hqdrop]
      have := hIA.cqNd
      rw [hqA, hq] at this
      rw [List.cons_append, List.nodup_cons] at this
      exact this.2
    · -- cqUndecl
      show ∀ T ∈ (writeRTTI w t s).classQueue.drop 1, ¬ Declared (writeRTTI w t s).out T
      intro T hT
      rw [hqdrop] at hT
      rw [hout1]
      intro hd
      rcases (hdecl_iff T).mp hd with h | rfl
      · refine hcu T ?_ h
        rw [hqA, hq]
        rcases List.mem_append.mp hT with h' | h'
        · exact List.mem_append_left _ (List.mem_cons_of_mem _ h')
        · exact List.mem_append_right _ h'
      · rcases List.mem_append.mp hT with h' | h'
        · exact htnd h'
        · exact hnewA T h' htset
    · -- declUniq
      show ∀ T d d', DeclAt (writeRTTI w t s).out d T →
        DeclAt (writeRTTI w t s).out d' T → d = d'
      intro T d d' h1 h2
      rw [hout1] at h1 h2
      rcases (declAt_append hTo).mp h1 with ha | ⟨hga, ha⟩ <;>
        rcases (declAt_append hTo).mp h2 with hb | ⟨hgb, hb⟩
      · exact hdu T d d' ha hb
      · obtain ⟨_, rfl⟩ := (declAt_rttiChunk w t).mp hb
        exact absurd ⟨d, ha⟩ htundecl
      · obtain ⟨_, rfl⟩ := (declAt_rttiChunk w t).mp ha
        exact absurd ⟨d', hb⟩ htundecl
      · obtain ⟨hda, _⟩ := (declAt_rttiChunk w t).mp ha
        obtain ⟨hdb, _⟩ := (declAt_rttiChunk w t).mp hb
        omega
    · -- primUndecl
      show ∀ T ∈ w.prims, ¬ Declared (writeRTTI w t s).out T
      intro T hT hd
      rw [hout1] at hd
      rcases (hdecl_iff T).mp hd with h | rfl
      · exact hpu T hT h
      · exact htp hT
    · -- cqValid
      show ∀ x ∈ (writeRTTI w t s).classQueue.drop 1, x < w.types.length
      intro x hx
      rw [hqdrop] at hx
      refine hIA.cqValid x ?_
      rw [hqA, hq]
      rcases List.mem_append.mp hx with h | h
      · exact List.mem_append_left _ (List.mem_cons_of_mem _ h)
      · exact List.mem_append_right _ h
    · -- cqPrim
      show ∀ x ∈ (writeRTTI w t s).classQueue.drop 1, x ∉ w.prims
      intro x hx
      rw [hqdrop] at hx
      refine hIA.cqPrim x ?_
      rw [hqA, hq]
      rcases List.mem_append.mp hx with h | h
      · exact List.mem_append_left _ (List.mem_cons_of_mem _ h)
      · exact List.mem_append_right _ h
    · -- declMember
      show ∀ T, Declared (writeRTTI w t s).out T →
        ∀ m ∈ memberTypesOf w T, m ∈ (writeRTTI w t s).classSet
      intro T hT m hm
      rw [hout1] at hT
      rw [hsetA]
      rcases (hdecl_iff T).mp hT with h | rfl
      · exact hdm T h m hm
      · exact hallA m hm
  · rw [hout1, hdrIds_append hTo, hdrIds_rttiChunk, List.append_nil]
  · rw [hsetA]
    exact hsubA
  · intro T hT
    rw [hout1]
    exact (hdecl_iff T).mpr (Or.inl hT)
  · show (List.drop 1 (writeRTTI w t s).classQueue).length +
      ((List.range w.types.length).filter
        (fun x => x ∉ (writeRTTI w t s).classSet)).length + 1 = classMeasure w s
    rw [hqdrop, hsetA]
    have hlen : (rest ++ new).length + 1 = (queueAll (memberTypesOf w t) s).classQueue.length := by
      rw [hqA, hq]
      simp [Nat.add_comm, Nat.add_assoc, Nat.add_left_comm]
    have := hmeasA
    unfold classMeasure at this ⊢
    omega

theorem drainClassQueue_nil {w : World} {fuel : Nat} {s : OState}
    (hq : s.classQueue = []) : drainClassQueue w fuel s = s := by
  cases fuel with
  | zero => rfl
  | succ n => simp only [drainClassQueue, hq]

theorem drain_inv {w : World} {root : ObjId} {rootT : TypeId} (hwf : wfB w = true) :
    ∀ (fuel : Nat) (s : OState), Inv w root rootT s → classMeasure w s ≤ fuel →
      Inv w root rootT (drainClassQueue w fuel s) ∧
      (drainClassQueue w fuel s).classQueue = [] ∧
      (drainClassQueue w fuel s).identifierMap = s.identifierMap ∧
      (drainClassQueue w fuel s).objectQueue = s.objectQueue ∧
      (drainClassQueue w fuel s).nextIdentifier = s.nextIdentifier ∧
      hdrIds (drainClassQueue w fuel s).out = hdrIds s.out ∧
      s.classSet ⊆ (drainClassQueue w fuel s).classSet ∧
      (∀ T, Declared s.out T → Declared (drainClassQueue w fuel s).out T) := by
  intro fuel
  induction fuel with
  | zero =>
    intro s hI hm
    have hq : s.classQueue = [] := by
      unfold classMeasure at hm
      rcases hql : s.classQueue with _ | ⟨t, rest⟩
      · rfl
      · rw [hql] at hm
        simp at hm
    rw [drainClassQueue_nil hq]
    exact ⟨hI, hq, rfl, rfl, rfl, rfl, fun x h => h, fun T h => h⟩
  | succ n ih =>
    intro s hI hm
    rcases hq : s.classQueue with _ | ⟨t, rest⟩
    · rw [drainClassQueue_nil hq]
      exact ⟨hI, hq, rfl, rfl, rfl, rfl, fun x h => h, fun T h => h⟩
    · simp only [drainClassQueue, hq]
      rw [if_neg (by rw [hI.ff]; simp)]
      obtain ⟨hI2, hmap2, hq2, hnext2, hh2, hsub2, hdm2, hmeas2⟩ := drain_step_inv hwf hI hq
      have hm2 : classMeasure w
          { writeRTTI w t s with classQueue := (writeRTTI w t s).classQueue.drop 1 } ≤ n := by
        omega
      obtain ⟨hI3, hq3, hmap3, hoq3, hnext3, hh3, hsub3, hdm3⟩ := ih _ hI2 hm2
      refine ⟨hI3, hq3, ?_, ?_, ?_, ?_, ?_, ?_⟩
      · rw [hmap3]
        exact hmap2
      · rw [hoq3]
        exact hq2
      · rw [hnext3]
        exact hnext2
      · rw [hh3]
        exact hh2
      · refine fun x h => hsub3 ?_
        exact hsub2 h
      · intro T hT
        exact hdm3 T (hdm2 T hT)

theorem headerRecs_no_declare (T0 : TypeId) (id : Identifier) :
    ∀ r ∈ headerRecs T0 id, r ≠ .dataType .declare := by
  intro r hr
  unfold headerRecs at hr
  simp only [List.mem_cons, List.not_mem_nil, or_false] at hr
  rcases hr with rfl | rfl | rfl | rfl | rfl <;> simp

theorem no_declAt_headerRecs (T0 : TypeId) (id : Identifier) {d : Nat} {T : TypeId} :
    ¬ DeclAt (headerRecs T0 id) d T := by
  rintro ⟨h1, _⟩
  exact absurd rfl (headerRecs_no_declare T0 id _ (List.getElem?_mem h1))

theorem hdrAt_headerRecs (T0 : TypeId) (id : Identifier) {j : Nat} {T : TypeId} :
    HdrAt (headerRecs T0 id) j T ↔ j = 2 ∧ T = T0 := by
  constructor
  · rintro ⟨h1, h2⟩
    have hlt : j < 5 := by
      have := (List.getElem?_eq_some.mp h1).1
      simpa [headerRecs] using this
    interval_cases j <;> simp_all [headerRecs, HdrAt]
  · rintro ⟨rfl, rfl⟩
    exact ⟨rfl, rfl⟩

theorem inv_append_header {w : World} {root : ObjId} {rootT : TypeId} {s : OState}
    (hI : Inv w root rootT s) {T0 : TypeId} {id : Identifier}
    (hT0 : T0 ∈ w.prims ∨ Declared s.out T0) :
    Inv w root rootT { s with out := s.out ++ headerRecs T0 id } ∧
    hdrIds (s.out ++ headerRecs T0 id) = hdrIds s.out ++ [id] := by
  have hTo := hI.tail
  have hiff : ∀ T, Declared (s.out ++ headerRecs T0 id) T ↔ Declared s.out T := by
    intro T
    rw [declared_append hTo]
    constructor
    · rintro (h | ⟨d, hd⟩)
      · exact h
      · exact absurd hd (no_declAt_headerRecs T0 id)
    · exact Or.inl
  have hdiff : ∀ d T, DeclAt (s.out ++ headerRecs T0 id) d T ↔ DeclAt s.out d T := by
    intro d T
    rw [declAt_append hTo]
    constructor
    · rintro (h | ⟨_, h⟩)
      · exact h
      · exact absurd h (no_declAt_headerRecs T0 id)
    · exact Or.inl
  refine ⟨⟨hI.ffa, hI.ff, ?_, hI.next, hI.ids, hI.keysNd, hI.qsub, hI.qnd, hI.sound,
    hI.headRoot, ?_, ?_, ?_, hI.cqSet, hI.primsSet, hI.cqNd, ?_, ?_, ?_, hI.cqValid,
    hI.cqPrim, ?_⟩, ?_⟩
  · show tailOKb (s.out ++ headerRecs T0 id) = true
    rw [tailOKb_append (by simp [headerRecs])]
    rfl
  · intro T hT
    rcases hI.setDecl T hT with h | h | h
    · exact Or.inl h
    · exact Or.inr (Or.inl h)
    · exact Or.inr (Or.inr ((hiff T).mpr h))
  · intro T hT
    exact hI.declSet T ((hiff T).mp hT)
  · intro j T hj hTp
    rcases (hdrAt_append hTo).mp hj with h | ⟨hge, h⟩
    · obtain ⟨d, hd, hdecl⟩ := hI.hdrDecl j T h hTp
      exact ⟨d, hd, (hdiff d T).mpr hdecl⟩
    · obtain ⟨hj2, rfl⟩ := (hdrAt_headerRecs T0 id).mp h
      rcases hT0 with h0 | ⟨d, h0⟩
      · exact absurd h0 hTp
      · have hdlt : d < s.out.length := by
          have := (List.getElem?_eq_some.mp h0.1).1
          exact this
        exact ⟨d, by omega, (hdiff d T).mpr h0⟩
  · intro T hT hd
    exact hI.cqUndecl T hT ((hiff T).mp hd)
  · intro T d d' h1 h2
    exact hI.declUniq T d d' ((hdiff d T).mp h1) ((hdiff d' T).mp h2)
  · intro T hT hd
    exact hI.primUndecl T hT ((hiff T).mp hd)
  · intro T hT m hm
    exact hI.declMember T ((hiff T).mp hT) m hm
  · rw [hdrIds_append hTo, hdrIds_headerRecs]

theorem writeObject_inv {w : World} {root : ObjId} {rootT : TypeId}
    (hwf : wfB w = true) {cfuel : Nat} {o : ObjId} {s : OState}
    (hI : Inv w root rootT s) (ho : o ∈ s.identifierMap.map Prod.fst)
    (hcq : s.classQueue = []) (hcf : w.types.length + 1 ≤ cfuel) :
    Inv w root rootT (writeObject w cfuel o s) ∧
    (writeObject w cfuel o s).classQueue = [] ∧
    (∃ m, (writeObject w cfuel o s).identifierMap = s.identifierMap ++ m ∧
      (writeObject w cfuel o s).objectQueue = s.objectQueue ++ m.map Prod.fst) ∧
    hdrIds (writeObject w cfuel o s).out = hdrIds s.out ++ [idOfIn s.identifierMap o] ∧
    (∀ p ∈ succsOf w o, p ∈ (writeObject w cfuel o s).identifierMap.map Prod.fst) ∧
    s.classSet ⊆ (writeObject w cfuel o s).classSet ∧
    (∀ info, lookupId s.identifierMap o = some info →
      info.rtti ∈ (writeObject w cfuel o s).classSet) := by
  obtain ⟨info, hlk⟩ : ∃ info, lookupId s.identifierMap o = some info := by
    have hs := lookupId_isSome_iff.mpr ho
    rcases h : lookupId s.identifierMap o with _ | v
    · rw [h] at hs
      simp at hs
    · exact ⟨v, rfl⟩
  obtain ⟨hoH, hoT, hoR⟩ := hI.sound (o, info) (lookupId_mem hlk)
  have ht : info.rtti < w.types.length := by
    rw [hoT]
    exact wf_typeOf_lt hwf hoH
  obtain ⟨hIa, hrta, hsuba, ⟨newa, hqa, _⟩, hmeasa⟩ := queueRTTI_inv hI ht
  have hmb : classMeasure w (queueRTTI info.rtti s) ≤ cfuel := by
    rw [hmeasa]
    unfold classMeasure
    rw [hcq]
    have hfl := List.length_filter_le (fun t => t ∉ s.classSet) (List.range w.types.length)
    simp only [List.length_nil, List.length_range] at hfl ⊢
    omega
  obtain ⟨hIb, hqb, hmapb, hoqb, hnextb, hhb, hsubb, hdmb⟩ :=
    drain_inv hwf cfuel (queueRTTI info.rtti s) hIa hmb
  have hT0b : info.rtti ∈ w.prims ∨
      Declared (drainClassQueue w cfuel (queueRTTI info.rtti s)).out info.rtti := by
    have hmem : info.rtti ∈ (drainClassQueue w cfuel (queueRTTI info.rtti s)).classSet :=
      hsubb hrta
    rcases hIb.setDecl _ hmem with h | h | h
    · exact Or.inl h
    · rw [hqb] at h
      simp at h
    · exact Or.inr h
  have hsc : emit (.ident info.identifier) (emit (.typeName info.rtti)
      (emit (.dataType .object) (emit .hint (emit .hint
        (drainClassQueue w cfuel (queueRTTI info.rtti s)))))) =
      { drainClassQueue w cfuel (queueRTTI info.rtti s) with
        out := (drainClassQueue w cfuel (queueRTTI info.rtti s)).out ++
          headerRecs info.rtti info.identifier } := by
    simp [emit, hIb.ff, hIb.ffa, headerRecs]
  have hobt : Inv w root rootT
      { drainClassQueue w cfuel (queueRTTI info.rtti s) with
        out := (drainClassQueue w cfuel (queueRTTI info.rtti s)).out ++
          headerRecs info.rtti info.identifier } ∧
      hdrIds ((drainClassQueue w cfuel (queueRTTI info.rtti s)).out ++
          headerRecs info.rtti info.identifier) =
        hdrIds (drainClassQueue w cfuel (queueRTTI info.rtti s)).out ++
          [info.identifier] :=
    inv_append_header hIb hT0b
  obtain ⟨hIc, hhc⟩ := hobt
  have hsd : emit .indentUp
      { drainClassQueue w cfuel (queueRTTI info.rtti s) with
        out := (drainClassQueue w cfuel (queueRTTI info.rtti s)).out ++
          headerRecs info.rtti info.identifier } =
      { drainClassQueue w cfuel (queueRTTI info.rtti s) with
        out := ((drainClassQueue w cfuel (queueRTTI info.rtti s)).out ++
          headerRecs info.rtti info.identifier) ++ [.indentUp] } := by
    simp [emit, hIb.ff, hIb.ffa]
  have hIdUp : Inv w root rootT
      { drainClassQueue w cfuel (queueRTTI info.rtti s) with
        out := ((drainClassQueue w cfuel (queueRTTI info.rtti s)).out ++
          headerRecs info.rtti info.identifier) ++ [.indentUp] } := by
    have hneu : ∀ r ∈ [Rec.indentUp], tailOKrec r = true := by
      intro r hr
      simp only [List.mem_singleton] at hr
      rw [hr]
      rfl
    exact inv_append_neutral hIc hneu
  have hPF : PtrFieldsOK w o (getType w info.rtti).attrs 0 := by
    rw [hoT]
    exact ptrFieldsOK_full hwf hoH
  obtain ⟨hIe, ⟨m, hme, hqe⟩, hcse, hcqe, hhe, hrege⟩ :=
    writeAttrsData_inv hoR (getType w info.rtti).attrs 0
      { drainClassQueue w cfuel (queueRTTI info.rtti s) with
        out := ((drainClassQueue w cfuel (queueRTTI info.rtti s)).out ++
          headerRecs info.rtti info.identifier) ++ [.indentUp] }
      hIdUp hPF
  have hwoeq : writeObject w cfuel o s =
      emit .indentDown (writeAttrsData w o (getType w info.rtti).attrs 0
        { drainClassQueue w cfuel (queueRTTI info.rtti s) with
          out := ((drainClassQueue w cfuel (queueRTTI info.rtti s)).out ++
            headerRecs info.rtti info.identifier) ++ [.indentUp] }) := by
    simp only [writeObject, hlk, writeClassData]
    rw [hsc, hsd]
  have hdownEq : emit .indentDown (writeAttrsData w o (getType w info.rtti).attrs 0
      { drainClassQueue w cfuel (queueRTTI info.rtti s) with
        out := ((drainClassQueue w cfuel (queueRTTI info.rtti s)).out ++
          headerRecs info.rtti info.identifier) ++ [.indentUp] }) =
      { writeAttrsData w o (getType w info.rtti).attrs 0
        { drainClassQueue w cfuel (queueRTTI info.rtti s) with
          out := ((drainClassQueue w cfuel (queueRTTI info.rtti s)).out ++
            headerRecs info.rtti info.identifier) ++ [.indentUp] } with
        out := (writeAttrsData w o (getType w info.rtti).attrs 0
          { drainClassQueue w cfuel (queueRTTI info.rtti s) with
            out := ((drainClassQueue w cfuel (queueRTTI info.rtti s)).out ++
              headerRecs info.rtti info.identifier) ++ [.indentUp] }).out ++ [.indentDown] } :=
    emit_of_ff _ hIe.ff hIe.ffa
  rw [hwoeq, hdownEq]
  refine ⟨?_, ?_, ⟨m, ?_, ?_⟩, ?_, ?_, ?_, ?_⟩
  · exact inv_append_neutral hIe (by
      intro r hr
      simp only [List.mem_singleton] at hr
      rw [hr]
      rfl)
  · show (writeAttrsData w o (getType w info.rtti).attrs 0 _).classQueue = []
    rw [hcqe]
    show (drainClassQueue w cfuel (queueRTTI info.rtti s)).classQueue = []
    exact hqb
  · show (writeAttrsData w o (getType w info.rtti).attrs 0 _).identifierMap
      = s.identifierMap ++ m
    rw [hme]
    show (drainClassQueue w cfuel (queueRTTI info.rtti s)).identifierMap ++ m
      = s.identifierMap ++ m
    rw [hmapb, queueRTTI_identifierMap]
  · show (writeAttrsData w o (getType w info.rtti).attrs 0 _).objectQueue
      = s.objectQueue ++ m.map Prod.fst
    rw [hqe]
    show (drainClassQueue w cfuel (queueRTTI info.rtti s)).objectQueue ++ m.map Prod.fst
      = s.objectQueue ++ m.map Prod.fst
    rw [hoqb, queueRTTI_objectQueue]
  · show hdrIds ((writeAttrsData w o (getType w info.rtti).attrs 0 _).out ++ [.indentDown])
      = hdrIds s.out ++ [idOfIn s.identifierMap o]
    rw [hdrIds_append_neutral hIe.tail (by
      intro r hr
      simp only [List.mem_singleton] at hr
      rw [hr]
      rfl)]
    rw [hhe]
    show hdrIds (((drainClassQueue w cfuel (queueRTTI info.rtti s)).out ++
      headerRecs info.rtti info.identifier) ++ [.indentUp])
      = hdrIds s.out ++ [idOfIn s.identifierMap o]
    rw [hdrIds_append_neutral hIc.tail (by
      intro r hr
      simp only [List.mem_singleton] at hr
      rw [hr]
      rfl)]
    rw [hhc, hhb]
    have hob : hdrIds (queueRTTI info.rtti s).out = hdrIds s.out := by
      rw [queueRTTI_out]
    rw [hob]
    have hid : idOfIn s.identifierMap o = info.identifier := by
      unfold idOfIn
      rw [hlk]
    rw [hid]
  · intro p hp
    obtain ⟨j, nm, tg, mt, hj, hpf⟩ := succsOf_mem.mp hp
    rw [← hoT] at hj
    have hpf' : (fieldAt (getObj w o) (0 + j)).toPtr = some p := by
      rw [Nat.zero_add]
      exact hpf
    have hmem := hrege j nm tg mt p hj hpf'
    exact hmem
  · intro x hx
    show x ∈ (writeAttrsData w o (getType w info.rtti).attrs 0 _).classSet
    rw [hcse]
    show x ∈ (drainClassQueue w cfuel (queueRTTI info.rtti s)).classSet
    exact hsubb (hsuba hx)
  · intro info' hlk'
    rw [hlk] at hlk'
    injection hlk' with hlk'
    subst hlk'
    show info.rtti ∈ (writeAttrsData w o (getType w info.rtti).attrs 0 _).classSet
    rw [hcse]
    show info.rtti ∈ (drainClassQueue w cfuel (queueRTTI info.rtti s)).classSet
    exact hsubb hrta

theorem idOfIn_append_left {m0 m1 : List (ObjId × ObjectInfo)} {o : ObjId}
    (h : o ∈ m0.map Prod.fst) : idOfIn (m0 ++ m1) o = idOfIn m0 o := by
  unfold idOfIn
  have hs := lookupId_isSome_iff.mpr h
  rcases hl : lookupId m0 o with _ | v
  · rw [hl] at hs
    simp at hs
  · rw [lookupId_append_left hl]

theorem nodup_bound {l : List Nat} {n : Nat} (hnd : l.Nodup) (hb : ∀ x ∈ l, x < n) :
    l.length ≤ n := by
  classical
  have h1 : l.toFinset.card = l.length := List.toFinset_card_of_nodup hnd
  have h2 : l.toFinset ⊆ Finset.range n := by
    intro x hx
    rw [List.mem_toFinset] at hx
    exact Finset.mem_range.mpr (hb x hx)
  have h3 := Finset.card_le_card h2
  rw [h1, Finset.card_range] at h3
  exact h3

theorem map_length_le_heap {w : World} {root : ObjId} {rootT : TypeId} {s : OState}
    (hI : Inv w root rootT s) : s.identifierMap.length ≤ w.heap.length := by
  have hlen : (s.identifierMap.map Prod.fst).length = s.identifierMap.length :=
    List.length_map _ _
  rw [← hlen]
  refine nodup_bound hI.keysNd ?_
  intro x hx
  obtain ⟨e, he, rfl⟩ := List.mem_map.mp hx
  exact (hI.sound e he).1

theorem loop_body_inv {w : World} {root : ObjId} {rootT : TypeId}
    (hwf : wfB w = true) {cfuel : Nat} {o : ObjId} {rest : List ObjId} {s : OState}
    (hI : Inv w root rootT s) (hH : HdrInv s) (hC : Closed w s) (hK : InstOK s)
    (hq : s.objectQueue = o :: rest) (hcq : s.classQueue = [])
    (hcf : w.types.length + 1 ≤ cfuel) :
    Inv w root rootT { writeObject w cfuel o s with
      objectQueue := (writeObject w cfuel o s).objectQueue.drop 1 } ∧
    HdrInv { writeObject w cfuel o s with
      objectQueue := (writeObject w cfuel o s).objectQueue.drop 1 } ∧
    Closed w { writeObject w cfuel o s with
      objectQueue := (writeObject w cfuel o s).objectQueue.drop 1 } ∧
    InstOK { writeObject w cfuel o s with
      objectQueue := (writeObject w cfuel o s).objectQueue.drop 1 } ∧
    (writeObject w cfuel o s).classQueue = [] ∧
    objMeasure w { writeObject w cfuel o s with
      objectQueue := (writeObject w cfuel o s).objectQueue.drop 1 } + 1 = objMeasure w s := by
  have ho : o ∈ s.identifierMap.map Prod.fst :=
    hI.qsub o (by rw [hq]; exact List.mem_cons_self _ _)
  obtain ⟨hI1, hcq1, ⟨m, hm1, hq1⟩, hh1, hsucc1, hsub1, hrtti1⟩ :=
    writeObject_inv hwf hI ho hcq hcf
  have hq1' : (writeObject w cfuel o s).objectQueue = o :: (rest ++ m.map Prod.fst) := by
    rw [hq1, hq]
    simp
  have hqdrop : (writeObject w cfuel o s).objectQueue.drop 1 = rest ++ m.map Prod.fst := by
    rw [hq1']
    rfl
  have hkeys1 : (writeObject w cfuel o s).identifierMap.map Prod.fst
      = s.identifierMap.map Prod.fst ++ m.map Prod.fst := by
    rw [hm1, List.map_append]
  refine ⟨?_, ?_, ?_, ?_, hcq1, ?_⟩
  · refine ⟨hI1.ffa, hI1.ff, hI1.tail, hI1.next, hI1.ids, hI1.keysNd, ?_, ?_, hI1.sound,
      hI1.headRoot, hI1.setDecl, hI1.declSet, hI1.hdrDecl, hI1.cqSet, hI1.primsSet,
      hI1.cqNd, hI1.cqUndecl, hI1.declUniq, hI1.primUndecl, hI1.cqValid, hI1.cqPrim,
      hI1.declMember⟩
    · intro x hx
      exact hI1.qsub x (List.mem_of_mem_drop hx)
    · exact (List.drop_sublist 1 _).nodup hI1.qnd
  · show hdrIds (writeObject w cfuel o s).out ++
      ((writeObject w cfuel o s).objectQueue.drop 1).map
        (idOfIn (writeObject w cfuel o s).identifierMap)
      = (writeObject w cfuel o s).identifierMap.map (fun e => e.2.identifier)
    rw [hh1, hqdrop, hm1, List.map_append, List.map_append]
    have hrest : rest.map (idOfIn (s.identifierMap ++ m)) = rest.map (idOfIn s.identifierMap) := by
      refine List.map_congr_left ?_
      intro q hqr
      exact idOfIn_append_left (hI.qsub q (by rw [hq]; exact List.mem_cons_of_mem _ hqr))
    have hmids : (m.map Prod.fst).map (idOfIn (s.identifierMap ++ m))
        = m.map (fun e => e.2.identifier) := by
      rw [List.map_map]
      refine List.map_congr_left ?_
      intro e he
      show idOfIn (s.identifierMap ++ m) e.1 = e.2.identifier
      unfold idOfIn
      have hnd : ((s.identifierMap ++ m).map Prod.fst).Nodup := by
        have := hI1.keysNd
        rw [hm1] at this
        exact this
      rw [lookupId_of_mem_nodup (List.mem_append_right _ he) hnd]
    rw [hrest, hmids]
    have hHf := hH
    unfold HdrInv at hHf
    rw [hq] at hHf
    simp only [List.map_cons] at hHf
    have hidf : idOfIn s.identifierMap o = idOfIn s.identifierMap o := rfl
    calc (hdrIds s.out ++ [idOfIn s.identifierMap o]) ++
          (rest.map (idOfIn s.identifierMap) ++ m.map (fun e => e.2.identifier))
        = (hdrIds s.out ++ idOfIn s.identifierMap o :: rest.map (idOfIn s.identifierMap)) ++
          m.map (fun e => e.2.identifier) := by
          simp [List.append_assoc]
      _ = s.identifierMap.map (fun e => e.2.identifier) ++ m.map (fun e => e.2.identifier) := by
          rw [hHf]
  · intro q hqk
    show q ∈ (writeObject w cfuel o s).objectQueue.drop 1 ∨
      ∀ p ∈ succsOf w q, p ∈ (writeObject w cfuel o s).identifierMap.map Prod.fst
    rw [hqdrop]
    rw [hkeys1] at hqk
    rcases List.mem_append.mp hqk with hqk | hqk
    · rcases hC q hqk with hql | hsuc
      · rw [hq] at hql
        rcases List.mem_cons.mp hql with rfl | hql
        · exact Or.inr hsucc1
        · exact Or.inl (List.mem_append_left _ hql)
      · refine Or.inr ?_
        intro p hp
        rw [hkeys1]
        exact List.mem_append_left _ (hsuc p hp)
    · exact Or.inl (List.mem_append_right _ hqk)
  · intro e he
    show e.1 ∈ (writeObject w cfuel o s).objectQueue.drop 1 ∨
      e.2.rtti ∈ (writeObject w cfuel o s).classSet
    rw [hqdrop]
    rw [hm1] at he
    rcases List.mem_append.mp he with he | he
    · rcases hK e he with hql | hset
      · rw [hq] at hql
        rcases List.mem_cons.mp hql with heo | hql
        · refine Or.inr ?_
          have hlk : lookupId s.identifierMap e.1 = some e.2 := by
            refine lookupId_of_mem_nodup ?_ hI.keysNd
            rcases e with ⟨k, v⟩
            exact he
          rw [heo] at hlk
          exact hrtti1 e.2 hlk
        · exact Or.inl (List.mem_append_left _ hql)
      · exact Or.inr (hsub1 hset)
    · refine Or.inl (List.mem_append_right _ ?_)
      exact List.mem_map.mpr ⟨e, he, rfl⟩
  · show ((writeObject w cfuel o s).objectQueue.drop 1).length +
      (w.heap.length - (writeObject w cfuel o s).identifierMap.length) + 1
      = s.objectQueue.length + (w.heap.length - s.identifierMap.length)
    rw [hqdrop, hm1, hq]
    have hle : s.identifierMap.length + m.length ≤ w.heap.length := by
      have := map_length_le_heap hI1
      rw [hm1, List.length_append] at this
      exact this
    simp only [List.length_append, List.length_cons, List.length_map]
    omega

theorem writeLoop_nil {w : World} {cfuel fuel : Nat} {s : OState}
    (hq : s.objectQueue = []) : writeLoop w cfuel fuel s = s := by
  cases fuel with
  | zero => rfl
  | succ n => simp only [writeLoop, hq]

theorem writeLoop_inv {w : World} {root : ObjId} {rootT : TypeId}
    (hwf : wfB w = true) {cfuel : Nat} (hcf : w.types.length + 1 ≤ cfuel) :
    ∀ (fuel : Nat) (s : OState), Inv w root rootT s → HdrInv s → Closed w s → InstOK s →
      s.classQueue = [] → objMeasure w s ≤ fuel →
      Inv w root rootT (writeLoop w cfuel fuel s) ∧
      HdrInv (writeLoop w cfuel fuel s) ∧
      Closed w (writeLoop w cfuel fuel s) ∧
      InstOK (writeLoop w cfuel fuel s) ∧
      (writeLoop w cfuel fuel s).objectQueue = [] ∧
      (writeLoop w cfuel fuel s).classQueue = [] := by
  intro fuel
  induction fuel with
  | zero =>
    intro s hI hH hC hK hcq hm
    have hq : s.objectQueue = [] := by
      unfold objMeasure at hm
      rcases hql : s.objectQueue with _ | ⟨o, rest⟩
      · rfl
      · rw [hql] at hm
        simp at hm
    rw [writeLoop_nil hq]
    exact ⟨hI, hH, hC, hK, hq, hcq⟩
  | succ n ih =>
    intro s hI hH hC hK hcq hm
    rcases hq : s.objectQueue with _ | ⟨o, rest⟩
    · rw [writeLoop_nil hq]
      exact ⟨hI, hH, hC, hK, hq, hcq⟩
    · simp only [writeLoop, hq]
      rw [if_neg (by rw [hI.ff]; simp)]
      obtain ⟨hI2, hH2, hC2, hK2, hcq2, hmeas2⟩ :=
        loop_body_inv hwf hI hH hC hK hq hcq hcf
      have hm2 : objMeasure w { writeObject w cfuel o s with
          objectQueue := (writeObject w cfuel o s).objectQueue.drop 1 } ≤ n := by
        omega
      exact ih _ hI2 hH2 hC2 hK2 hcq2 hm2

theorem write_inv {w : World} {root : ObjId} (hwf : wfB w = true)
    {cfuel ofuel : Nat} (hcf : w.types.length + 1 ≤ cfuel) (hof : w.heap.length ≤ ofuel)
    (hroot : root < w.heap.length) :
    Inv w root (getObj w root).type
      (write w cfuel ofuel root (getObj w root).type (initState w none)).2 ∧
    HdrInv (write w cfuel ofuel root (getObj w root).type (initState w none)).2 ∧
    Closed w (write w cfuel ofuel root (getObj w root).type (initState w none)).2 ∧
    InstOK (write w cfuel ofuel root (getObj w root).type (initState w none)).2 ∧
    (write w cfuel ofuel root (getObj w root).type (initState w none)).2.objectQueue = [] ∧
    (write w cfuel ofuel root (getObj w root).type (initState w none)).2.classQueue = [] := by
  have hnodecl : ∀ T, ¬ Declared ([] : List Rec) T := by
    rintro T ⟨d, h1, _⟩
    simp at h1
  have hs1 : { initState w none with
      identifierMap := insertNew (initState w none).identifierMap root
        ⟨(initState w none).nextIdentifier, (getObj w root).type⟩
      nextIdentifier := (initState w none).nextIdentifier + 1 } =
      { initState w none with
        identifierMap := [(root, ⟨1, (getObj w root).type⟩)]
        nextIdentifier := 2 } := by
    rfl
  have hI1 : Inv w root (getObj w root).type
      { initState w none with
        identifierMap := [(root, ⟨1, (getObj w root).type⟩)]
        nextIdentifier := 2 } := by
    refine ⟨rfl, rfl, rfl, rfl, rfl, by simp, by simp [initState], by simp [initState], ?_,
      rfl, ?_, ?_, ?_, by simp [initState], ?_, by simp [initState], by simp [initState],
      ?_, ?_, by simp [initState], by simp [initState], ?_⟩
    · intro e he
      simp only [List.mem_singleton] at he
      subst he
      exact ⟨hroot, rfl, Reaches.refl⟩
    · intro T hT
      exact Or.inl hT
    · intro T hT
      exact absurd hT (hnodecl T)
    · rintro j T ⟨h1, _⟩ _
      simp [initState] at h1
    · intro t hT
      simpa [initState] using hT
    · intro T d d' h1 h2
      exact absurd ⟨d, h1⟩ (hnodecl T)
    · intro T _ hd
      exact hnodecl T hd
    · intro T hT
      exact absurd hT (hnodecl T)
  have hroot_mem : root ∈ ({ initState w none with
      identifierMap := [(root, ⟨1, (getObj w root).type⟩)]
      nextIdentifier := 2 } : OState).identifierMap.map Prod.fst := by
    simp
  obtain ⟨hI2, hcq2, ⟨m, hm2, hq2⟩, hh2, hsucc2, hsub2, hrtti2⟩ :=
    writeObject_inv hwf hI1 hroot_mem rfl hcf
  have hlkroot : lookupId [(root, (⟨1, (getObj w root).type⟩ : ObjectInfo))] root
      = some ⟨1, (getObj w root).type⟩ := by
    simp [lookupId]
  -- the state abbreviations
  have hkeys2 : (writeObject w cfuel root
      { initState w none with
        identifierMap := [(root, ⟨1, (getObj w root).type⟩)]
        nextIdentifier := 2 }).identifierMap.map Prod.fst
      = root :: m.map Prod.fst := by
    rw [hm2]
    simp
  have hH2 : HdrInv (writeObject w cfuel root
      { initState w none with
        identifierMap := [(root, ⟨1, (getObj w root).type⟩)]
        nextIdentifier := 2 }) := by
    show hdrIds _ ++ _ = _
    rw [hh2, hq2, hm2]
    have hids : (m.map Prod.fst).map
        (idOfIn ([(root, (⟨1, (getObj w root).type⟩ : ObjectInfo))] ++ m))
        = m.map (fun e => e.2.identifier) := by
      rw [List.map_map]
      refine List.map_congr_left ?_
      intro e he
      show idOfIn ([(root, (⟨1, (getObj w root).type⟩ : ObjectInfo))] ++ m) e.1
        = e.2.identifier
      unfold idOfIn
      have hnd : (([(root, (⟨1, (getObj w root).type⟩ : ObjectInfo))] ++ m).map
          Prod.fst).Nodup := by
        have := hI2.keysNd
        rw [hm2] at this
        exact this
      rw [lookupId_of_mem_nodup (List.mem_append_right _ he) hnd]
    simp only [List.map_append, List.nil_append]
    rw [hids]
    have hidroot : idOfIn [(root, (⟨1, (getObj w root).type⟩ : ObjectInfo))] root = 1 := by
      unfold idOfIn
      rw [hlkroot]
    rw [hidroot]
    show ([1] : List Identifier) ++ m.map (fun e => e.2.identifier) =
      [(1 : Identifier)] ++ m.map (fun e => e.2.identifier)
    rfl
  have hC2 : Closed w (writeObject w cfuel root
      { initState w none with
        identifierMap := [(root, ⟨1, (getObj w root).type⟩)]
        nextIdentifier := 2 }) := by
    intro q hqk
    rw [hkeys2] at hqk
    rcases List.mem_cons.mp hqk with rfl | hqk
    · exact Or.inr hsucc2
    · refine Or.inl ?_
      rw [hq2]
      simp only [List.nil_append]
      exact hqk
  have hK2 : InstOK (writeObject w cfuel root
      { initState w none with
        identifierMap := [(root, ⟨1, (getObj w root).type⟩)]
        nextIdentifier := 2 }) := by
    intro e he
    rw [hm2] at he
    rcases List.mem_append.mp he with he | he
    · simp only [List.mem_singleton] at he
      subst he
      exact Or.inr (hrtti2 _ hlkroot)
    · refine Or.inl ?_
      rw [hq2]
      simp only [List.nil_append]
      exact List.mem_map.mpr ⟨e, he, rfl⟩
  have hmeas2 : objMeasure w (writeObject w cfuel root
      { initState w none with
        identifierMap := [(root, ⟨1, (getObj w root).type⟩)]
        nextIdentifier := 2 }) ≤ ofuel := by
    unfold objMeasure
    rw [hq2, hm2]
    have hle : 1 + m.length ≤ w.heap.length := by
      have := map_length_le_heap hI2
      rw [hm2, List.length_append] at this
      simpa using this
    simp only [initState, List.nil_append, List.length_map, List.length_append,
      List.length_singleton, List.length_cons, List.length_nil]
    omega
  obtain ⟨hI3, hH3, hC3, hK3, hoq3, hcq3⟩ :=
    writeLoop_inv hwf hcf ofuel _ hI2 hH2 hC2 hK2 hcq2 hmeas2
  have hfinal : (write w cfuel ofuel root (getObj w root).type (initState w none)).2 =
      writeLoop w cfuel ofuel (writeObject w cfuel root
        { initState w none with
          identifierMap := [(root, ⟨1, (getObj w root).type⟩)]
          nextIdentifier := 2 }) := by
    simp only [write]
    rfl
  rw [hfinal]
  exact ⟨hI3, hH3, hC3, hK3, hoq3, hcq3⟩

theorem C8_declared_count_vs_emitted_witness :
    ((writeRTTI ⟨[⟨[.nonSerializable, .primAttr "x" 1 none]⟩], [], []⟩ 0
        (initState ⟨[⟨[.nonSerializable, .primAttr "x" 1 none]⟩], [], []⟩ none)).out =
      [] ++ rttiChunk ⟨[⟨[.nonSerializable, .primAttr "x" 1 none]⟩], [], []⟩ 0 ∧
      (rttiChunk ⟨[⟨[.nonSerializable, .primAttr "x" 1 none]⟩], [], []⟩ 0)[4]? =
        some (.count 2) ∧
      (rttiChunk ⟨[⟨[.nonSerializable, .primAttr "x" 1 none]⟩], [], []⟩ 0).countP
          isAttrNameRec = 1) ∧
    (∃ c, (writeClassData ⟨[⟨[.nonSerializable, .primAttr "x" 1 none]⟩], [], []⟩ 0 0
        (initState ⟨[⟨[.nonSerializable, .primAttr "x" 1 none]⟩], [], []⟩ none)).out =
      [] ++ c ∧ c.countP isDataVal = 1) ∧
    ((∃ a ∈ [Attr.nonSerializable, Attr.primAttr "x" 1 none], isSerializable a = false) →
      (1 : Nat) < 2) :=
  C8_declared_count_vs_emitted ⟨[⟨[.nonSerializable, .primAttr "x" 1 none]⟩], [], []⟩ 0 0
    (initState ⟨[⟨[.nonSerializable, .primAttr "x" 1 none]⟩], [], []⟩ none) rfl rfl

/-- C1: for every well-formed finite object graph — shared references and
cycles included — a complete `Write` session assigns exactly one identifier
to each distinct object identity reachable from the root (the identifier
map's keys are duplicate-free and are exactly the reachable objects), and
emits exactly one full object record per identity: the full-object-record
identifiers of the output are exactly the assigned identifiers, without
duplicates, so the count of full object records equals the count of
distinct reachable identities. -/
theorem C1_each_reachable_exactly_once (w : World) (root cfuel ofuel : Nat)
    (hwf : wfB w = true) (hcf : w.types.length + 1 ≤ cfuel)
    (hof : w.heap.length ≤ ofuel) (hroot : root < w.heap.length) :
    ((finalState w cfuel ofuel root).identifierMap.map Prod.fst).Nodup ∧
    (∀ o, o ∈ (finalState w cfuel ofuel root).identifierMap.map Prod.fst ↔
      Reaches w root o) ∧
    hdrIds (finalState w cfuel ofuel root).out =
      (finalState w cfuel ofuel root).identifierMap.map (fun e => e.2.identifier) ∧
    (hdrIds (finalState w cfuel ofuel root).out).Nodup ∧
    (hdrIds (finalState w cfuel ofuel root).out).length =
      ((finalState w cfuel ofuel root).identifierMap.map Prod.fst).length := by
  obtain ⟨hI, hH, hC, hK, hoq, hcq⟩ := write_inv hwf hcf hof hroot
  unfold finalState
  have hhd : hdrIds (write w cfuel ofuel root (getObj w root).type (initState w none)).2.out =
      (write w cfuel ofuel root (getObj w root).type (initState w none)).2.identifierMap.map
        (fun e => e.2.identifier) := by
    have h := hH
    unfold HdrInv at h
    rw [hoq] at h
    simpa using h
  refine ⟨hI.keysNd, ?_, hhd, ?_, ?_⟩
  · intro o
    constructor
    · intro ho
      obtain ⟨e, he, rfl⟩ := List.mem_map.mp ho
      exact (hI.sound e he).2.2
    · intro hre
      induction hre with
      | refl =>
        refine List.mem_map.mpr ⟨(root, ⟨1, (getObj w root).type⟩), ?_, rfl⟩
        have hh := hI.headRoot
        cases hm : (write w cfuel ofuel root (getObj w root).type
            (initState w none)).2.identifierMap with
        | nil =>
          rw [hm] at hh
          simp at hh
        | cons a rest =>
          rw [hm] at hh
          simp only [List.head?_cons, Option.some.injEq] at hh
          subst hh
          exact List.mem_cons_self _ _
      | step hro hs ih =>
        rcases hC _ ih with hq | hcl
        · rw [hoq] at hq
          simp at hq
        · exact hcl _ hs
  · rw [hhd, hI.ids]
    exact List.nodup_range' 1 _ 1 one_pos
  · rw [hhd]
    simp

theorem C1_each_reachable_exactly_once_witness :
    ((finalState nodeW 2 2 0).identifierMap.map Prod.fst).Nodup :=
  (C1_each_reachable_exactly_once nodeW 0 2 2 (by decide) (by decide) (by decide)
    (by decide)).1

/-- C2: the class queue is drained completely before any object data is
emitted, so in the full output no object header of a (non-primitive) type
`T` precedes `T`'s class declaration: every object record's type has a
declaration at a strictly earlier index, and at the end of the session the
class queue is empty. -/
theorem C2_declaration_precedes_headers (w : World) (root cfuel ofuel : Nat)
    (hwf : wfB w = true) (hcf : w.types.length + 1 ≤ cfuel)
    (hof : w.heap.length ≤ ofuel) (hroot : root < w.heap.length) :
    (∀ j T, HdrAt (finalState w cfuel ofuel root).out j T → T ∉ w.prims →
      ∃ d, d < j ∧ DeclAt (finalState w cfuel ofuel root).out d T) ∧
    (finalState w cfuel ofuel root).classQueue = [] := by
  obtain ⟨hI, _, _, _, _, hcq⟩ := write_inv hwf hcf hof hroot
  unfold finalState
  exact ⟨hI.hdrDecl, hcq⟩

theorem C2_declaration_precedes_headers_witness :
    ∃ d, d < 15 ∧ DeclAt (finalState nodeW 2 2 0).out d 0 :=
  (C2_declaration_precedes_headers nodeW 0 2 2 (by decide) (by decide) (by decide)
    (by decide)).1 15 0 (by unfold HdrAt; decide) (by decide)

/-- C4: within one session identifiers are the strictly increasing
sequence 1, 2, 3, … in order of first observation: the null identifier is
0, the counter starts at 1, the root receives identifier 1, the assigned
identifiers (in map order, which is first-observation order) are exactly
`range' 1 n`, the counter ends one past the last assigned identifier, and
no real object ever holds the null identifier. -/
theorem C4_identifier_sequence (w : World) (fa : Option Nat) (root cfuel ofuel : Nat)
    (hwf : wfB w = true) (hcf : w.types.length + 1 ≤ cfuel)
    (hof : w.heap.length ≤ ofuel) (hroot : root < w.heap.length) :
    sNullIdentifier = 0 ∧
    (initState w fa).nextIdentifier = sNullIdentifier + 1 ∧
    lookupId (finalState w cfuel ofuel root).identifierMap root =
      some ⟨1, (getObj w root).type⟩ ∧
    (finalState w cfuel ofuel root).identifierMap.map (fun e => e.2.identifier) =
      List.range' 1 (finalState w cfuel ofuel root).identifierMap.length ∧
    (finalState w cfuel ofuel root).nextIdentifier =
      (finalState w cfuel ofuel root).identifierMap.length + 1 ∧
    (∀ e ∈ (finalState w cfuel ofuel root).identifierMap,
      e.2.identifier ≠ sNullIdentifier) := by
  obtain ⟨hI, _, _, _, _, _⟩ := write_inv hwf hcf hof hroot
  unfold finalState
  refine ⟨rfl, rfl, head?_lookupId hI.headRoot, hI.ids, hI.next, ?_⟩
  intro e he
  have hm : e.2.identifier ∈
      (write w cfuel ofuel root (getObj w root).type
        (initState w none)).2.identifierMap.map (fun e => e.2.identifier) :=
    List.mem_map.mpr ⟨e, he, rfl⟩
  rw [hI.ids] at hm
  have h2 := List.mem_range'_1.mp hm
  intro hc
  rw [hc] at h2
  exact absurd h2.1 (by decide)

theorem C4_identifier_sequence_witness :
    lookupId (finalState nodeW 2 2 0).identifierMap 0 = some ⟨1, (getObj nodeW 0).type⟩ :=
  (C4_identifier_sequence nodeW none 0 2 2 (by decide) (by decide) (by decide)
    (by decide)).2.2.1

/-- C6: class declaration is idempotent per session: at most one
declaration record is ever emitted for any type (declaration positions are
unique), and every non-primitive type that has at least one instance among
the registered (reachable) objects has at least one declaration record —
so a type with N ≥ 1 instances gets exactly one declaration, not N. -/
theorem C6_declaration_idempotent (w : World) (root cfuel ofuel : Nat)
    (hwf : wfB w = true) (hcf : w.types.length + 1 ≤ cfuel)
    (hof : w.heap.length ≤ ofuel) (hroot : root < w.heap.length) :
    (∀ T d d', DeclAt (finalState w cfuel ofuel root).out d T →
      DeclAt (finalState w cfuel ofuel root).out d' T → d = d') ∧
    (∀ T, T ∉ w.prims →
      (∃ e ∈ (finalState w cfuel ofuel root).identifierMap, e.2.rtti = T) →
      Declared (finalState w cfuel ofuel root).out T) := by
  obtain ⟨hI, _, _, hK, hoq, hcq⟩ := write_inv hwf hcf hof hroot
  unfold finalState
  refine ⟨fun T d d' h1 h2 => hI.declUniq T d d' h1 h2, ?_⟩
  rintro T hp ⟨e, he, hrt⟩
  rcases hK e he with hq | hset
  · rw [hoq] at hq
    simp at hq
  · rw [hrt] at hset
    rcases hI.setDecl T hset with h | h | h
    · exact absurd h hp
    · rw [hcq] at h
      simp at h
    · exact h

theorem C6_declaration_idempotent_witness :
    Declared (finalState nodeW 2 2 0).out 0 :=
  (C6_declaration_idempotent nodeW 0 2 2 (by decide) (by decide) (by decide)
    (by decide)).2 0 (by decide) ⟨(0, ⟨1, 0⟩), by decide, rfl⟩

/-- C7: serialization terminates on every well-formed finite graph: at the
end of a session both work queues are empty, and the number of full object
records equals the number of registered objects, which is bounded by the
heap size.  Concretely, a single self-referencing object is written as one
declaration chunk and one object record whose `next` field holds the
object's own identifier 1, and `Write` returns success. -/
theorem C7_termination_self_loop (w : World) (root cfuel ofuel : Nat)
    (hwf : wfB w = true) (hcf : w.types.length + 1 ≤ cfuel)
    (hof : w.heap.length ≤ ofuel) (hroot : root < w.heap.length) :
    ((finalState w cfuel ofuel root).objectQueue = [] ∧
     (finalState w cfuel ofuel root).classQueue = [] ∧
     (hdrIds (finalState w cfuel ofuel root).out).length =
       (finalState w cfuel ofuel root).identifierMap.length ∧
     (finalState w cfuel ofuel root).identifierMap.length ≤ w.heap.length) ∧
    ((write selfW 2 1 0 0 (initState selfW none)).1 = true ∧
     (write selfW 2 1 0 0 (initState selfW none)).2.out =
       rttiChunk selfW 0 ++ headerRecs 0 1 ++ [.indentUp, .hint, .ident 1, .indentDown] ∧
     lookupId (write selfW 2 1 0 0 (initState selfW none)).2.identifierMap 0 =
       some ⟨1, 0⟩) := by
  obtain ⟨hI, hH, _, _, hoq, hcq⟩ := write_inv hwf hcf hof hroot
  unfold finalState
  have hhd : hdrIds (write w cfuel ofuel root (getObj w root).type (initState w none)).2.out =
      (write w cfuel ofuel root (getObj w root).type (initState w none)).2.identifierMap.map
        (fun e => e.2.identifier) := by
    have h := hH
    unfold HdrInv at h
    rw [hoq] at h
    simpa using h
  refine ⟨⟨hoq, hcq, ?_, map_length_le_heap hI⟩, by decide, by decide, by decide⟩
  rw [hhd]
  simp

theorem C7_termination_self_loop_witness :
    (finalState nodeW 2 2 0).objectQueue = [] :=
  (C7_termination_self_loop nodeW 0 2 2 (by decide) (by decide) (by decide)
    (by decide)).1.1

/-- C9: every primitive type is in the declared-class set from
construction on, `QueueRTTI` is a no-op on any type already in the class
set, and consequently during a whole session no declaration record is ever
emitted for a primitive type, while all primitives remain in the class
set. -/
theorem C9_primitives_never_declared (w : World) (fa : Option Nat)
    (root cfuel ofuel : Nat) (hwf : wfB w = true)
    (hcf : w.types.length + 1 ≤ cfuel) (hof : w.heap.length ≤ ofuel)
    (hroot : root < w.heap.length) :
    (initState w fa).classSet = w.prims ∧
    (∀ t, ∀ s : OState, t ∈ s.classSet → queueRTTI t s = s) ∧
    (∀ T ∈ w.prims, ¬ Declared (finalState w cfuel ofuel root).out T) ∧
    (∀ t ∈ w.prims, t ∈ (finalState w cfuel ofuel root).classSet) := by
  obtain ⟨hI, _, _, _, _, _⟩ := write_inv hwf hcf hof hroot
  unfold finalState
  refine ⟨rfl, ?_, hI.primUndecl, hI.primsSet⟩
  intro t s h
  simp [queueRTTI, h]

theorem C9_primitives_never_declared_witness :
    ¬ Declared (finalState primW 3 1 0).out 1 :=
  (C9_primitives_never_declared primW none 0 3 1 (by decide) (by decide) (by decide)
    (by decide)).2.2.1 1 (by decide)

end JoltSpec
